import Mathlib

/-!
Shallow embedding of the geometric core of the osm-renderer repository:
the scanline rasterizer (src/draw/fill.rs) and the multipolygon ring
assembler (src/geodata/find_polygons.rs), together with theorems about
them.

Modelling conventions:
* Rust `i32` coordinates are embedded as `Int` (no arithmetic in the
  source can overflow the claims' concrete inputs, and the algorithms are
  written in plain signed arithmetic).
* Rust `HashMap`/`HashSet` are embedded as association lists / membership
  lists with first-touch insertion order.  The source only ever iterates
  `y_to_edges` and the per-row edge maps; `HashMap` iteration order is
  arbitrary in Rust, and the embedding fixes insertion order as one
  admissible order.  The per-row fill result is order-independent because
  the fill colour is a single constant per call.
* Loops with no structural bound in the source (the Bresenham walk in
  `draw_line`, the DFS driver in `find_ring_from`, and the `while
  unmatched_count > 0` driver) are embedded with an explicit fuel
  parameter; `none` from a fueled function means the fuel ran out.
  Sufficiency of the fuel is proved as a theorem, so the corresponding
  `Option` never is `none` for the fuels the top-level wrappers pass.
* A Rust panic (the out-of-bounds index `good_edges[idx + 1]` in
  `fill_contour`) is embedded as `none` of the enclosing function.
* A `Figure` is only observed through which pixels get filled (the fill
  colour is one constant per call), so it is embedded as the list of
  `(x, y)` pixels in fill order.
-/

/-- Device-space point, `draw::point::Point` with `x`, `y` as `i32`. -/
structure Point where
  x : Int
  y : Int
deriving DecidableEq, Inhabited

/-- Per-(scanline, edge-index) record from src/draw/fill.rs (`struct Edge`). -/
structure Edge where
  x_min : Int
  x_max : Int
  is_poisoned : Bool
deriving DecidableEq, Inhabited

/-- One scanline's `HashMap<usize, Edge>`, as an association list keyed by
edge index in first-touch order. -/
abbrev EdgeRow := List (Nat × Edge)

/-- The source's `EdgesByY = HashMap<i32, HashMap<usize, Edge>>`, as an
association list keyed by scanline `y` in first-touch order. -/
abbrev EdgesByY := List (Int × EdgeRow)

/-- Embeds `y_to_edges.entry(y)...entry(edge_idx).or_insert_with(Edge{x,x,pois})`
followed by `x_min = min`, `x_max = max`, `is_poisoned |= pois` on one row. -/
def touch_edge (row : EdgeRow) (edge_idx : Nat) (xc : Int) (pois : Bool) : EdgeRow :=
  match row with
  | [] => [(edge_idx, ⟨xc, xc, pois⟩)]
  | (i, e) :: rest =>
    if i = edge_idx then
      (i, ⟨min e.x_min xc, max e.x_max xc, e.is_poisoned || pois⟩) :: rest
    else
      (i, e) :: touch_edge rest edge_idx xc pois

/-- Updates the whole `y_to_edges` map at scanline `yc` for edge `edge_idx`
visiting column `xc`. -/
def touch_point (m : EdgesByY) (yc : Int) (edge_idx : Nat) (xc : Int) (pois : Bool) : EdgesByY :=
  match m with
  | [] => [(yc, touch_edge [] edge_idx xc pois)]
  | (ry, row) :: rest =>
    if ry = yc then
      (ry, touch_edge row edge_idx xc pois) :: rest
    else
      (ry, row) :: touch_point rest yc edge_idx xc pois

/-- The source's `get_dir` closure: `if c1 < c2 { 1 } else { -1 }`. -/
def get_dir (c1 c2 : Int) : Int := if c1 < c2 then 1 else -1

/-- Two-complement wrap of an integer into the `i32` range, the result of
Rust release-mode arithmetic when an `i32` operation overflows (and the
identity when it does not). -/
def wrap32 (z : Int) : Int := (z + 2147483648) % 4294967296 - 2147483648

/-- One iteration's step of the Bresenham error/position update in
`draw_line` (the code after the `is_end` check).  Every addition and the
doubling are `i32` operations in the source, so each is wrapped. -/
def walk_step (dx dy sx sy : Int) (cur : Point) (err : Int) : Point × Int :=
  let e2 := wrap32 (2 * err)
  let cur1 := if e2 ≥ dy then { cur with x := wrap32 (cur.x + sx) } else cur
  let err1 := if e2 ≥ dy then wrap32 (err + dy) else err
  let cur2 := if e2 ≤ dx then { cur1 with y := wrap32 (cur1.y + sy) } else cur1
  let err2 := if e2 ≤ dx then wrap32 (err1 + dx) else err1
  (cur2, err2)

/-- The `loop { ... }` body of `draw_line`, with fuel.  At each visited grid
cell it computes the poisoning flag (start: `p1.y <= p2.y`; end:
`p2.y <= p1.y`; otherwise not poisoned), records the cell, stops at `p2`,
and otherwise performs the Bresenham step.  `none` means the fuel ran out. -/
def draw_line_go (edge_idx : Nat) (p1 p2 : Point) (dx dy sx sy : Int) :
    Nat → Point → Int → EdgesByY → Option EdgesByY
  | 0, _, _, _ => none
  | fuel + 1, cur, err, m =>
    let pois : Bool :=
      if cur = p1 then decide (p1.y ≤ p2.y)
      else if cur = p2 then decide (p2.y ≤ p1.y)
      else false
    let m1 := touch_point m cur.y edge_idx cur.x pois
    if cur = p2 then
      some m1
    else
      let s := walk_step dx dy sx sy cur err
      draw_line_go edge_idx p1 p2 dx dy sx sy fuel s.1 s.2 m1

/-- Fuel that suffices for the Bresenham walk from `p1` to `p2`
(`draw_line_go_complete` proves sufficiency). -/
def walk_fuel (p1 p2 : Point) : Nat :=
  (p2.x - p1.x).natAbs + (p2.y - p1.y).natAbs + 1

/-- The fueled Bresenham walk of `draw_line`, with the source's initial
state: `dx = (p2.x - p1.x).abs()`, `dy = -(p2.y - p1.y).abs()`, `sx`/`sy`
from `get_dir`, `err = dx + dy`, starting at `p1`.  The subtraction, the
absolute value, the negation and the initial sum are `i32` operations, so
each is wrapped. -/
def draw_line_walk (edge_idx : Nat) (p1 p2 : Point) (m : EdgesByY) : Option EdgesByY :=
  draw_line_go edge_idx p1 p2 (wrap32 |wrap32 (p2.x - p1.x)|)
    (wrap32 (-(wrap32 |wrap32 (p2.y - p1.y)|)))
    (get_dir p1.x p2.x) (get_dir p1.y p2.y) (walk_fuel p1 p2) p1
    (wrap32 (wrap32 |wrap32 (p2.x - p1.x)| + wrap32 (-(wrap32 |wrap32 (p2.y - p1.y)|)))) m

/-- The source's `draw_line`.  The `none` fallback branch is dead code:
`draw_line_walk_isSome` proves the walk always finishes within
`walk_fuel p1 p2`. -/
def draw_line (edge_idx : Nat) (p1 p2 : Point) (m : EdgesByY) : EdgesByY :=
  match draw_line_walk edge_idx p1 p2 m with
  | some m1 => m1
  | none => m

/-- The first loop of `fill_contour`: `for (idx, (p1, p2)) in points.enumerate()
{ draw_line(idx, &p1, &p2, &mut y_to_edges); }`. -/
def rasterize_edges (points : List (Point × Point)) : EdgesByY :=
  points.enum.foldl (fun m ip => draw_line ip.1 ip.2.1 ip.2.2 m) []

/-- The pixels of `for x in e1.x_min .. (e2.x_max + 1) { figure.add(x, y, ..) }`.
The range's upper bound `e2.x_max + 1` is an `i32` addition, so it is
wrapped. -/
def span_pixels (x1 x2 yc : Int) : List (Int × Int) :=
  (List.range (wrap32 (x2 + 1) - x1).toNat).map fun k => (x1 + k, yc)

/-- The pairing loop `while idx < good_edges.len()` over one scanline's
sorted surviving edges.  A singleton tail models the source reading
`good_edges[idx + 1]` one past the end of the vector, which panics;
the panic is embedded as `none`. -/
def fill_row_spans (yc : Int) : List Edge → Option (List (Int × Int))
  | [] => some []
  | [_] => none
  | e1 :: e2 :: rest =>
    match fill_row_spans yc rest with
    | none => none
    | some tail => some (span_pixels e1.x_min e2.x_max yc ++ tail)

/-- One scanline's surviving edges: `edges.values().filter(|e| !e.is_poisoned)`
then `sort_by_key(|e| e.x_min)`.  Rust's `sort_by_key` is a stable sort,
and a stable sort by a key is a unique function of its input, so the
stable `List.insertionSort` models it exactly. -/
def good_edges (row : EdgeRow) : List Edge :=
  List.insertionSort (fun a b => a.x_min ≤ b.x_min)
    ((row.map Prod.snd).filter (fun e => !e.is_poisoned))

/-- The second loop of `fill_contour`: process every scanline independently,
concatenating the filled pixels.  `none` propagates the pairing-loop panic. -/
def fill_rows : EdgesByY → Option (List (Int × Int))
  | [] => some []
  | (yc, row) :: rest =>
    match fill_row_spans yc (good_edges row), fill_rows rest with
    | some px, some tail => some (px ++ tail)
    | _, _ => none

/-- The source's `fill_contour`, observed through the set of filled pixels
(the fill colour is one constant, `RgbaColor::from_color(color, opacity)`,
for the whole call).  `none` embeds the out-of-bounds panic of the pairing
loop. -/
def fill_contour (points : List (Point × Point)) : Option (List (Int × Int)) :=
  fill_rows (rasterize_edges points)

/-!
Ring assembler, src/geodata/find_polygons.rs.

`NodePos` is the position key `(lat.to_bits(), lon.to_bits())`: an exact
bit-level identity for the coordinate pair, compared only for equality.
The embedding keeps it as an opaque pair of naturals.

The source grows a ring by a depth-first search driven by an explicit
stack of `Root` / `StartSegment` / `EndSegment` elements
(`find_ring_from` and `push_next_segments`).  Processing `StartSegment s`
includes `s` and pushes the candidate successors of `s` above
`EndSegment s`; processing `EndSegment s` excludes `s` again.  The
embedding renders this stack machine as the recursion it implements: for
each candidate in adjacency order (`push_next_segments` pushes
`segs.iter().rev()`, and the stack pops in reverse, so candidates are
explored in forward adjacency order), include the segment, recurse, and
exclude it when the subtree fails.  The candidate filter (`can_use` and
`is_duplicate`) runs at push time in the source and at include time here;
the two states agree on everything the filter reads: availability and
`used_segments` are restored exactly by the backtracking (proved below as
`explore_candidates_false` / `find_ring_from_false`), and `used_vertices`
is restored except possibly for `first_pos`, whose membership the filter
never observes (`is_duplicate` is false whenever `other_side = first_pos`
regardless of membership).
-/

/-- Position key of a node: the bit patterns of its `(lat, lon)` pair. -/
abbrev NodePos := Nat × Nat

/-- The source's `NodeDesc`: entity id plus position key. -/
structure NodeDesc where
  id : Nat
  pos : NodePos
deriving DecidableEq, Inhabited

/-- The source's `NodeDescPair`: an unordered segment with an `is_inner` flag. -/
structure NodeDescPair where
  node1 : NodeDesc
  node2 : NodeDesc
  is_inner : Bool
deriving DecidableEq, Inhabited

/-- The source's `ConnectedSegment` adjacency entry. -/
structure ConnectedSegment where
  other_side : NodePos
  segment_index : Nat
  is_inner : Bool
deriving DecidableEq, Inhabited

/-- The source's `SearchParams`: the ring's closing position key and class. -/
structure SearchParams where
  first_pos : NodePos
  is_inner : Bool
deriving DecidableEq, Inhabited

/-- The source's `get_connections`/`add_to_connections`: each segment
contributes one adjacency entry per endpoint, in segment order; the list
at a key preserves push order. -/
def get_connections (segs : List NodeDescPair) (p : NodePos) : List ConnectedSegment :=
  (segs.enum.flatMap fun ispair =>
      [(ispair.2.node1.pos, ConnectedSegment.mk ispair.2.node2.pos ispair.1 ispair.2.is_inner),
       (ispair.2.node2.pos, ConnectedSegment.mk ispair.2.node1.pos ispair.1 ispair.2.is_inner)]).filterMap
    fun e => if e.1 = p then some e.2 else none

/-- The source's `CurrentRing` backtracking state.  `used_vertices` is a
`HashSet`, embedded as a duplicate-free membership list. -/
structure CurrentRing where
  available_segments : List Bool
  used_segments : List Nat
  used_vertices : List NodePos
deriving DecidableEq, Inhabited

/-- `HashSet::insert`: idempotent insertion. -/
def insert_vertex (s : List NodePos) (p : NodePos) : List NodePos :=
  if p ∈ s then s else p :: s

/-- The source's `CurrentRing::include_segment`. -/
def include_segment (st : CurrentRing) (seg : ConnectedSegment) : CurrentRing :=
  { available_segments := st.available_segments.set seg.segment_index false
    used_segments := st.used_segments ++ [seg.segment_index]
    used_vertices := insert_vertex st.used_vertices seg.other_side }

/-- The source's `CurrentRing::exclude_segment` (pop the last used segment,
`HashSet::remove` the far vertex). -/
def exclude_segment (st : CurrentRing) (seg : ConnectedSegment) : CurrentRing :=
  { available_segments := st.available_segments.set seg.segment_index true
    used_segments := st.used_segments.dropLast
    used_vertices := st.used_vertices.erase seg.other_side }

/-- The `can_use` condition of `push_next_segments`: class match and
availability.  Out-of-range indices read as unavailable (in the source all
indices are in range by construction). -/
def can_use (params : SearchParams) (st : CurrentRing) (seg : ConnectedSegment) : Bool :=
  (seg.is_inner == params.is_inner) && st.available_segments.getD seg.segment_index false

/-- The `is_duplicate` condition of `push_next_segments`. -/
def is_duplicate (params : SearchParams) (st : CurrentRing) (seg : ConnectedSegment) : Bool :=
  decide (seg.other_side ∈ st.used_vertices) && (seg.other_side != params.first_pos)

/-- The candidate loop of the DFS: for each adjacency entry in order, if it
passes the filter, include it; succeed if it closes the ring with at least
3 segments, otherwise recurse from its far endpoint and exclude it if the
subtree fails.  `recurse` is the next-depth search; `none` means the fuel
ran out inside it. -/
def explore_candidates (params : SearchParams)
    (recurse : NodePos → CurrentRing → Option (CurrentRing × Bool)) :
    List ConnectedSegment → CurrentRing → Option (CurrentRing × Bool)
  | [], st => some (st, false)
  | seg :: rest, st =>
    if can_use params st seg && !is_duplicate params st seg then
      let st1 := include_segment st seg
      if params.first_pos = seg.other_side ∧ 3 ≤ st1.used_segments.length then
        some (st1, true)
      else
        match recurse seg.other_side st1 with
        | none => none
        | some (st2, true) => some (st2, true)
        | some (st2, false) => explore_candidates params recurse rest (exclude_segment st2 seg)
    else
      explore_candidates params recurse rest st

/-- The source's `find_ring_from` stack machine, rendered as fueled
recursion (see the section comment).  `none` means the fuel ran out. -/
def find_ring_from (conns : NodePos → List ConnectedSegment) (params : SearchParams) :
    Nat → NodePos → CurrentRing → Option (CurrentRing × Bool)
  | 0, _, _ => none
  | fuel + 1, last_pos, st =>
    explore_candidates params (find_ring_from conns params fuel) (conns last_pos) st

/-- Fuel passed to `find_ring_from`; `find_ring_from_complete` proves it
suffices (the DFS depth is bounded by the number of available segments). -/
def ring_fuel (segs : List NodeDescPair) : Nat := segs.length + 1

/-- The seed loop of the source's `find_ring`: try every still-available
segment as a ring seed in index order; on success return the ring's
segment indices together with the updated availability array, on failure
restore the seed and continue.  `none` means the DFS fuel ran out. -/
def find_ring_seeds (segs : List NodeDescPair) (conns : NodePos → List ConnectedSegment) :
    List Nat → List Bool → Option (Option (List Nat) × List Bool)
  | [], avail => some (none, avail)
  | start_idx :: rest, avail =>
    if avail.getD start_idx false then
      let start_segment := segs.getD start_idx default
      let st : CurrentRing :=
        { available_segments := avail.set start_idx false
          used_segments := [start_idx]
          used_vertices :=
            insert_vertex (insert_vertex [] start_segment.node1.pos) start_segment.node2.pos }
      let params : SearchParams :=
        { first_pos := start_segment.node1.pos, is_inner := start_segment.is_inner }
      match find_ring_from conns params (ring_fuel segs) start_segment.node2.pos st with
      | none => none
      | some (st2, true) => some (some st2.used_segments, st2.available_segments)
      | some (st2, false) => find_ring_seeds segs conns rest (st2.available_segments.set start_idx true)
    else
      find_ring_seeds segs conns rest avail

/-- The `while unmatched_count > 0` driver of `find_polygons_in_multipolygon`,
with fuel.  On a failed `find_ring` the source logs the relation id, the
number of complete rings and the unmatched count and returns `None`; the
embedding returns that diagnostic pair `(all_rings.len(), unmatched_count)`
as an `Except.error` value. -/
def find_polygons_loop (segs : List NodeDescPair) (conns : NodePos → List ConnectedSegment) :
    Nat → Nat → List Bool → List (List Nat) → Option (Except (Nat × Nat) (List (List Nat)))
  | 0, _, _, _ => none
  | fuel + 1, unmatched_count, avail, all_rings =>
    if unmatched_count = 0 then
      some (Except.ok all_rings)
    else
      match find_ring_seeds segs conns (List.range segs.length) avail with
      | none => none
      | some (none, _) => some (Except.error (all_rings.length, unmatched_count))
      | some (some ring, avail2) =>
        find_polygons_loop segs conns fuel (unmatched_count - ring.length) avail2
          (all_rings ++ [ring])

/-- The ring-partitioning phase of `find_polygons_in_multipolygon` (before
polygons are built from the rings).  `none` means some fuel ran out;
`find_all_rings_complete` proves this never happens. -/
def find_all_rings (segs : List NodeDescPair) : Option (Except (Nat × Nat) (List (List Nat))) :=
  find_polygons_loop segs (get_connections segs) (segs.length + 1) segs.length
    (List.replicate segs.length true) []

/-- The body of the polygon-building loop for `idx > 0` (and the tail of the
`idx = 0` iteration): append whichever endpoint id differs from the
polygon's current last id. -/
def build_polygon_walk (segs : List NodeDescPair) : List Nat → List Nat → List Nat
  | [], poly => poly
  | r :: rest, poly =>
    let seg := segs.getD r default
    let last_node := poly.getLastD 0
    build_polygon_walk segs rest
      (poly ++ [if last_node = seg.node1.id then seg.node2.id else seg.node1.id])

/-- The polygon-building loop of `find_polygons_in_multipolygon`: start from
the seed segment's first endpoint id, then walk shared endpoints. -/
def build_polygon (segs : List NodeDescPair) (ring : List Nat) : List Nat :=
  match ring with
  | [] => []
  | r :: rest => build_polygon_walk segs (r :: rest) [(segs.getD r default).node1.id]

/-- The source's `find_polygons_in_multipolygon`: partition the segments
into rings, then convert each ring to a polygon (a list of node ids). -/
def find_polygons_in_multipolygon (segs : List NodeDescPair) :
    Option (Except (Nat × Nat) (List (List Nat))) :=
  match find_all_rings segs with
  | none => none
  | some (Except.error e) => some (Except.error e)
  | some (Except.ok rings) => some (Except.ok (rings.map (build_polygon segs)))

/-!
Basic list lemmas used by the invariant proofs: `getD`/`set`/`count`
interaction on `List Bool`, `enum` membership, and flatten/nodup facts.
-/

theorem getD_true_lt (l : List Bool) (i : Nat) (h : l.getD i false = true) : i < l.length := by
  induction l generalizing i with
  | nil => simp [List.getD] at h
  | cons a t ih =>
    cases i with
    | zero => simp
    | succ j => simpa using ih j (by simpa [List.getD] using h)

theorem getD_set_self (l : List Bool) (i : Nat) (a : Bool) (h : i < l.length) :
    (l.set i a).getD i false = a := by
  induction l generalizing i with
  | nil => simp at h
  | cons b t ih =>
    cases i with
    | zero => simp [List.getD]
    | succ j => simpa [List.getD] using ih j (by simpa using h)

theorem getD_set_ne (l : List Bool) (i j : Nat) (a : Bool) (h : i ≠ j) :
    (l.set i a).getD j false = l.getD j false := by
  induction l generalizing i j with
  | nil => simp
  | cons b t ih =>
    cases i with
    | zero => cases j with
      | zero => exact absurd rfl h
      | succ k => simp [List.getD]
    | succ i2 => cases j with
      | zero => simp [List.getD]
      | succ k => simpa [List.getD] using ih i2 k (by omega)

theorem set_true_getD (l : List Bool) (i : Nat) (h : l.getD i false = true) :
    l.set i true = l := by
  induction l generalizing i with
  | nil => simp
  | cons b t ih =>
    cases i with
    | zero => simp_all [List.getD]
    | succ j => simp_all [List.getD]

theorem count_true_set_false (l : List Bool) (i : Nat) (h : l.getD i false = true) :
    (l.set i false).count true + 1 = l.count true := by
  induction l generalizing i with
  | nil => simp [List.getD] at h
  | cons b t ih =>
    cases i with
    | zero =>
      simp only [List.getD, List.getD_cons_zero] at h
      subst h
      simp [List.count_cons]
    | succ j =>
      have := ih j (by simpa [List.getD] using h)
      simp only [List.set_cons_succ, List.count_cons]
      omega

theorem getD_replicate_true (n j : Nat) :
    (List.replicate n true).getD j false = decide (j < n) := by
  induction n generalizing j with
  | zero => simp
  | succ k ih =>
    cases j with
    | zero => simp [List.replicate, List.getD]
    | succ j2 =>
      rw [List.replicate_succ, List.getD_cons_succ, ih j2]
      exact decide_eq_decide.mpr (by omega)

theorem mem_enumFrom_getD {α : Type} (l : List α) (n : Nat) (p : Nat × α) (d : α)
    (h : p ∈ l.enumFrom n) : n ≤ p.1 ∧ p.1 - n < l.length ∧ l.getD (p.1 - n) d = p.2 := by
  induction l generalizing n with
  | nil => simp [List.enumFrom] at h
  | cons a t ih =>
    simp only [List.enumFrom, List.mem_cons] at h
    rcases h with h | h
    · subst h
      simp [List.getD]
    · obtain ⟨h1, h2, h3⟩ := ih (n + 1) h
      refine ⟨by omega, by simp; omega, ?_⟩
      have hp : p.1 - n = (p.1 - (n + 1)) + 1 := by omega
      rw [hp]
      simpa [List.getD] using h3

theorem mem_enum_getD {α : Type} (l : List α) (p : Nat × α) (d : α)
    (h : p ∈ l.enum) : p.1 < l.length ∧ l.getD p.1 d = p.2 := by
  have := mem_enumFrom_getD l 0 p d (by simpa [List.enum] using h)
  simpa using this

theorem nodup_flatten_pairwise (L : List (List Nat)) (h : L.flatten.Nodup) :
    L.Pairwise (fun r1 r2 => ∀ i ∈ r1, i ∉ r2) := by
  induction L with
  | nil => exact List.Pairwise.nil
  | cons r L ih =>
    rw [List.flatten_cons, List.nodup_append] at h
    refine List.Pairwise.cons (fun r2 hr2 i hir => ?_) (ih h.2.1)
    intro hir2
    exact h.2.2 hir (List.mem_flatten.mpr ⟨r2, hr2, hir2⟩)

/-!
Termination of the Bresenham walk.  Writing `u = sx * (cur.x - p1.x)` and
`v = sy * (cur.y - p1.y)` for the progress counters, the walk maintains
`0 ≤ u ≤ dx`, `0 ≤ v ≤ -dy`, the exact error identity
`err = (v + 1) * dx + (u + 1) * dy` and the error range
`3 * dy ≤ 2 * err ≤ 3 * dx`; under these, each non-final iteration makes
at least one step, never overshoots, and decreases `(dx - u) + (-dy - v)`.
When both endpoints have coordinates of magnitude at most `2^28`, the
error range keeps every intermediate `i32` value of the source strictly
inside the `i32` range, so no wrap fires and the walk reaches `p2`.
-/

theorem step_bounds (dx b u v err : Int) (hdx : 0 ≤ dx) (hb : 0 ≤ b)
    (hu0 : 0 ≤ u) (hu1 : u ≤ dx) (hv0 : 0 ≤ v) (hv1 : v ≤ b)
    (herr : err = (v + 1) * dx - (u + 1) * b) (hend : ¬(u = dx ∧ v = b)) :
    (-b ≤ 2 * err → u < dx) ∧ (2 * err ≤ dx → v < b) ∧ (-b ≤ 2 * err ∨ 2 * err ≤ dx) := by
  refine ⟨?_, ?_, ?_⟩
  · intro h
    by_contra hlt
    have hu : u = dx := by omega
    have hvb : v < b := by
      rcases lt_or_eq_of_le hv1 with h2 | h2
      · exact h2
      · exact absurd ⟨hu, h2⟩ hend
    have hb1 : 1 ≤ b := by omega
    have hprod : (v + 1) * dx ≤ b * dx :=
      mul_le_mul_of_nonneg_right (by omega) hdx
    rw [herr, hu] at h
    nlinarith
  · intro h
    by_contra hlt
    have hv : v = b := by omega
    have hud : u < dx := by
      rcases lt_or_eq_of_le hu1 with h2 | h2
      · exact h2
      · exact absurd ⟨h2, hv⟩ hend
    have hdx1 : 1 ≤ dx := by omega
    have hprod : (u + 1) * b ≤ dx * b :=
      mul_le_mul_of_nonneg_right (by omega) hb
    rw [herr, hv] at h
    nlinarith
  · by_contra h
    push_neg at h
    omega

/-- On values inside the `i32` range the wrap is the identity (no overflow
means Rust computes the exact integer result). -/
theorem wrap32_eq_of (z : Int) (h1 : -2147483648 ≤ z) (h2 : z < 2147483648) :
    wrap32 z = z := by
  unfold wrap32
  omega

/-- Closed form of one `walk_step` when every intermediate `i32` value
stays in range: all the wraps are the identity. -/
theorem walk_step_inrange (dx dy sx sy : Int) (cur : Point) (err : Int)
    (h2e : (2 * err).natAbs < 2147483648)
    (hcx : (cur.x + sx).natAbs < 2147483648)
    (hcy : (cur.y + sy).natAbs < 2147483648)
    (hed : (err + dy).natAbs < 2147483648)
    (hex : (err + dx).natAbs < 2147483648)
    (hedx : (err + dy + dx).natAbs < 2147483648) :
    walk_step dx dy sx sy cur err =
      (⟨cur.x + (if dy ≤ 2 * err then sx else 0), cur.y + (if 2 * err ≤ dx then sy else 0)⟩,
       err + (if dy ≤ 2 * err then dy else 0) + (if 2 * err ≤ dx then dx else 0)) := by
  have w2e : wrap32 (2 * err) = 2 * err := wrap32_eq_of _ (by omega) (by omega)
  have wx : wrap32 (cur.x + sx) = cur.x + sx := wrap32_eq_of _ (by omega) (by omega)
  have wy : wrap32 (cur.y + sy) = cur.y + sy := wrap32_eq_of _ (by omega) (by omega)
  have we1 : wrap32 (err + dy) = err + dy := wrap32_eq_of _ (by omega) (by omega)
  have we2 : wrap32 (err + dx) = err + dx := wrap32_eq_of _ (by omega) (by omega)
  have we3 : wrap32 (err + dy + dx) = err + dy + dx := wrap32_eq_of _ (by omega) (by omega)
  simp only [walk_step, ge_iff_le, w2e]
  by_cases h1 : dy ≤ 2 * err <;> by_cases h2 : 2 * err ≤ dx <;>
    simp [h1, h2, wx, wy, we1, we2, we3]

theorem walk_step_spec (dx dy sx sy : Int) (p1 p2 cur : Point) (err : Int)
    (hdx : dx = |p2.x - p1.x|) (hdy : dy = -|p2.y - p1.y|)
    (hsx : sx = get_dir p1.x p2.x) (hsy : sy = get_dir p1.y p2.y)
    (hB1 : p1.x.natAbs ≤ 268435456) (hB2 : p1.y.natAbs ≤ 268435456)
    (hB3 : p2.x.natAbs ≤ 268435456) (hB4 : p2.y.natAbs ≤ 268435456)
    (hu0 : 0 ≤ sx * (cur.x - p1.x)) (hu1 : sx * (cur.x - p1.x) ≤ dx)
    (hv0 : 0 ≤ sy * (cur.y - p1.y)) (hv1 : sy * (cur.y - p1.y) ≤ -dy)
    (herr : err = (sy * (cur.y - p1.y) + 1) * dx + (sx * (cur.x - p1.x) + 1) * dy)
    (herr3 : 3 * dy ≤ 2 * err ∧ 2 * err ≤ 3 * dx)
    (hend : cur ≠ p2) :
    0 ≤ sx * ((walk_step dx dy sx sy cur err).1.x - p1.x) ∧
    sx * ((walk_step dx dy sx sy cur err).1.x - p1.x) ≤ dx ∧
    0 ≤ sy * ((walk_step dx dy sx sy cur err).1.y - p1.y) ∧
    sy * ((walk_step dx dy sx sy cur err).1.y - p1.y) ≤ -dy ∧
    (walk_step dx dy sx sy cur err).2 =
      (sy * ((walk_step dx dy sx sy cur err).1.y - p1.y) + 1) * dx +
        (sx * ((walk_step dx dy sx sy cur err).1.x - p1.x) + 1) * dy ∧
    (3 * dy ≤ 2 * (walk_step dx dy sx sy cur err).2 ∧
      2 * (walk_step dx dy sx sy cur err).2 ≤ 3 * dx) ∧
    (dx - sx * ((walk_step dx dy sx sy cur err).1.x - p1.x)).toNat +
        (-dy - sy * ((walk_step dx dy sx sy cur err).1.y - p1.y)).toNat <
      (dx - sx * (cur.x - p1.x)).toNat + (-dy - sy * (cur.y - p1.y)).toNat := by
  have hdx0 : 0 ≤ dx := by rw [hdx]; exact abs_nonneg _
  have hdy0 : dy ≤ 0 := by rw [hdy]; exact neg_nonpos.mpr (abs_nonneg _)
  have hsx1 : sx = 1 ∨ sx = -1 := by
    rw [hsx]; unfold get_dir; split
    · left; rfl
    · right; rfl
  have hsy1 : sy = 1 ∨ sy = -1 := by
    rw [hsy]; unfold get_dir; split
    · left; rfl
    · right; rfl
  have hkx : sx * (p2.x - p1.x) = dx := by
    rw [hsx, hdx]; unfold get_dir; split
    · rw [one_mul, abs_of_nonneg (by omega)]
    · rw [abs_of_nonpos (by omega)]; ring
  have hky : sy * (p2.y - p1.y) = -dy := by
    rw [hsy, hdy]; unfold get_dir; split
    · rw [one_mul, neg_neg, abs_of_nonneg (by omega)]
    · rw [neg_neg, abs_of_nonpos (by omega)]; ring
  have hdxB : dx ≤ 536870912 := by
    rw [hdx, Int.abs_eq_natAbs]
    have := Int.natAbs_sub_le p2.x p1.x
    omega
  have hdyB : -536870912 ≤ dy := by
    rw [hdy, Int.abs_eq_natAbs]
    have := Int.natAbs_sub_le p2.y p1.y
    omega
  have hcurx : cur.x.natAbs ≤ 268435456 := by
    rcases hsx1 with h | h <;> rw [h] at hu0 hu1 hkx <;> omega
  have hcury : cur.y.natAbs ≤ 268435456 := by
    rcases hsy1 with h | h <;> rw [h] at hv0 hv1 hky <;> omega
  have hsxa : sx.natAbs = 1 := by rcases hsx1 with h | h <;> rw [h] <;> rfl
  have hsya : sy.natAbs = 1 := by rcases hsy1 with h | h <;> rw [h] <;> rfl
  have hne : ¬(sx * (cur.x - p1.x) = dx ∧ sy * (cur.y - p1.y) = -dy) := by
    rintro ⟨h1, h2⟩
    apply hend
    have hx : cur.x = p2.x := by
      rcases hsx1 with h | h <;> rw [h] at h1 hkx <;> omega
    have hy : cur.y = p2.y := by
      rcases hsy1 with h | h <;> rw [h] at h2 hky <;> omega
    obtain ⟨cx, cy⟩ := cur
    obtain ⟨qx, qy⟩ := p2
    simp only [Point.mk.injEq]
    exact ⟨hx, hy⟩
  obtain ⟨hbx, hby, hor⟩ :=
    step_bounds dx (-dy) (sx * (cur.x - p1.x)) (sy * (cur.y - p1.y)) err hdx0 (by omega)
      hu0 hu1 hv0 hv1 (by rw [herr]; ring) hne
  have hssx : sx * sx = 1 := by rcases hsx1 with h | h <;> rw [h] <;> norm_num
  have hssy : sy * sy = 1 := by rcases hsy1 with h | h <;> rw [h] <;> norm_num
  rw [walk_step_inrange dx dy sx sy cur err (by omega) (by omega) (by omega) (by omega)
    (by omega) (by omega)]
  by_cases hxs : dy ≤ 2 * err <;> by_cases hys : 2 * err ≤ dx <;>
    simp only [hxs, hys, if_pos, if_neg, if_true, if_false, not_false_eq_true, ite_true,
      ite_false, add_zero]
  · -- both steps
    have hux : sx * (cur.x + sx - p1.x) = sx * (cur.x - p1.x) + 1 := by
      have : sx * (cur.x + sx - p1.x) = sx * (cur.x - p1.x) + sx * sx := by ring
      rw [this, hssx]
    have hvy : sy * (cur.y + sy - p1.y) = sy * (cur.y - p1.y) + 1 := by
      have : sy * (cur.y + sy - p1.y) = sy * (cur.y - p1.y) + sy * sy := by ring
      rw [this, hssy]
    have hu2 : sx * (cur.x - p1.x) < dx := hbx (by omega)
    have hv2 : sy * (cur.y - p1.y) < -dy := hby hys
    refine ⟨by omega, by omega, by omega, by omega, ?_, ⟨by omega, by omega⟩, by omega⟩
    rw [hux, hvy, herr]; ring
  · -- x step only
    have hux : sx * (cur.x + sx - p1.x) = sx * (cur.x - p1.x) + 1 := by
      have : sx * (cur.x + sx - p1.x) = sx * (cur.x - p1.x) + sx * sx := by ring
      rw [this, hssx]
    have hu2 : sx * (cur.x - p1.x) < dx := hbx (by omega)
    refine ⟨by omega, by omega, hv0, hv1, ?_, ⟨by omega, by omega⟩, by omega⟩
    rw [hux, herr]; ring
  · -- y step only
    have hvy : sy * (cur.y + sy - p1.y) = sy * (cur.y - p1.y) + 1 := by
      have : sy * (cur.y + sy - p1.y) = sy * (cur.y - p1.y) + sy * sy := by ring
      rw [this, hssy]
    have hv2 : sy * (cur.y - p1.y) < -dy := hby hys
    refine ⟨hu0, hu1, by omega, by omega, ?_, ⟨by omega, by omega⟩, by omega⟩
    rw [hvy, herr]; ring
  · -- no step: impossible
    rcases hor with h | h
    · exact absurd (by omega) hxs
    · exact absurd h hys

theorem draw_line_go_complete (edge_idx : Nat) (p1 p2 : Point) (dx dy sx sy : Int)
    (hdx : dx = |p2.x - p1.x|) (hdy : dy = -|p2.y - p1.y|)
    (hsx : sx = get_dir p1.x p2.x) (hsy : sy = get_dir p1.y p2.y)
    (hB1 : p1.x.natAbs ≤ 268435456) (hB2 : p1.y.natAbs ≤ 268435456)
    (hB3 : p2.x.natAbs ≤ 268435456) (hB4 : p2.y.natAbs ≤ 268435456) :
    ∀ (fuel : Nat) (cur : Point) (err : Int) (m : EdgesByY),
      0 ≤ sx * (cur.x - p1.x) → sx * (cur.x - p1.x) ≤ dx →
      0 ≤ sy * (cur.y - p1.y) → sy * (cur.y - p1.y) ≤ -dy →
      err = (sy * (cur.y - p1.y) + 1) * dx + (sx * (cur.x - p1.x) + 1) * dy →
      3 * dy ≤ 2 * err ∧ 2 * err ≤ 3 * dx →
      (dx - sx * (cur.x - p1.x)).toNat + (-dy - sy * (cur.y - p1.y)).toNat < fuel →
      (draw_line_go edge_idx p1 p2 dx dy sx sy fuel cur err m).isSome := by
  intro fuel
  induction fuel with
  | zero => intro cur err m _ _ _ _ _ _ hfuel; omega
  | succ fuel ih =>
    intro cur err m hu0 hu1 hv0 hv1 herr herr3 hfuel
    rw [draw_line_go]
    by_cases hend : cur = p2
    · simp [hend]
    · simp only [if_neg hend, Option.isSome_some]
      obtain ⟨g1, g2, g3, g4, g5, g6, g7⟩ :=
        walk_step_spec dx dy sx sy p1 p2 cur err hdx hdy hsx hsy hB1 hB2 hB3 hB4
          hu0 hu1 hv0 hv1 herr herr3 hend
      exact ih (walk_step dx dy sx sy cur err).1 (walk_step dx dy sx sy cur err).2 _
        g1 g2 g3 g4 g5 g6 (by omega)

/-- The Bresenham walk of `draw_line` always reaches `p2` within
`walk_fuel p1 p2` iterations when both endpoints have coordinates of
magnitude at most `2^28`: within that range no `i32` operation of the
source overflows and the `loop` terminates. -/
theorem draw_line_walk_isSome (edge_idx : Nat) (p1 p2 : Point) (m : EdgesByY)
    (hB1 : p1.x.natAbs ≤ 268435456) (hB2 : p1.y.natAbs ≤ 268435456)
    (hB3 : p2.x.natAbs ≤ 268435456) (hB4 : p2.y.natAbs ≤ 268435456) :
    (draw_line_walk edge_idx p1 p2 m).isSome := by
  have hnx : (p2.x - p1.x).natAbs ≤ 536870912 := by
    have := Int.natAbs_sub_le p2.x p1.x
    omega
  have hny : (p2.y - p1.y).natAbs ≤ 536870912 := by
    have := Int.natAbs_sub_le p2.y p1.y
    omega
  have w1 : wrap32 (p2.x - p1.x) = p2.x - p1.x := wrap32_eq_of _ (by omega) (by omega)
  have w2 : wrap32 |p2.x - p1.x| = |p2.x - p1.x| :=
    wrap32_eq_of _ (by rw [Int.abs_eq_natAbs]; omega) (by rw [Int.abs_eq_natAbs]; omega)
  have w3 : wrap32 (p2.y - p1.y) = p2.y - p1.y := wrap32_eq_of _ (by omega) (by omega)
  have w4 : wrap32 |p2.y - p1.y| = |p2.y - p1.y| :=
    wrap32_eq_of _ (by rw [Int.abs_eq_natAbs]; omega) (by rw [Int.abs_eq_natAbs]; omega)
  have w5 : wrap32 (-|p2.y - p1.y|) = -|p2.y - p1.y| :=
    wrap32_eq_of _ (by rw [Int.abs_eq_natAbs]; omega) (by rw [Int.abs_eq_natAbs]; omega)
  have w6 : wrap32 (|p2.x - p1.x| + -|p2.y - p1.y|) = |p2.x - p1.x| + -|p2.y - p1.y| :=
    wrap32_eq_of _ (by rw [Int.abs_eq_natAbs, Int.abs_eq_natAbs]; omega)
      (by rw [Int.abs_eq_natAbs, Int.abs_eq_natAbs]; omega)
  unfold draw_line_walk
  rw [w1, w2, w3, w4, w5, w6]
  apply draw_line_go_complete edge_idx p1 p2 _ _ _ _ rfl rfl rfl rfl hB1 hB2 hB3 hB4
    (walk_fuel p1 p2) p1 (|p2.x - p1.x| + -|p2.y - p1.y|) m
  · simp
  · simp
  · simp
  · simp
  · simp only [sub_self, mul_zero, zero_add]
    ring
  · constructor
    · have h1 : (0 : Int) ≤ |p2.x - p1.x| := abs_nonneg _
      have h2 : (0 : Int) ≤ |p2.y - p1.y| := abs_nonneg _
      linarith
    · have h1 : (0 : Int) ≤ |p2.x - p1.x| := abs_nonneg _
      have h2 : (0 : Int) ≤ |p2.y - p1.y| := abs_nonneg _
      linarith
  · simp only [sub_self, mul_zero, sub_zero]
    rw [walk_fuel, Int.abs_eq_natAbs, Int.abs_eq_natAbs]
    omega

/-!
Invariants of the backtracking ring search.  `ring_extension st st2 ext`
says a successful search extended the ring state `st` by the segment
indices `ext`: they are appended to `used_segments`, they were all
available in `st`, and they are exactly the indices newly marked
unavailable.  A failed search restores `available_segments` and
`used_segments` exactly.
-/

def ring_extension (st st2 : CurrentRing) (ext : List Nat) : Prop :=
  st2.used_segments = st.used_segments ++ ext ∧
  ext.Nodup ∧
  (∀ i ∈ ext, st.available_segments.getD i false = true) ∧
  st2.available_segments.length = st.available_segments.length ∧
  (∀ j, st2.available_segments.getD j false =
    if j ∈ ext then false else st.available_segments.getD j false)

theorem ring_extension_of_eq (stB st st2 : CurrentRing) (ext : List Nat)
    (h1 : stB.available_segments = st.available_segments)
    (h2 : stB.used_segments = st.used_segments)
    (h : ring_extension stB st2 ext) : ring_extension st st2 ext := by
  unfold ring_extension at h ⊢
  rw [h1, h2] at h
  exact h

theorem can_use_getD (params : SearchParams) (st : CurrentRing) (seg : ConnectedSegment)
    (h : can_use params st seg = true) :
    st.available_segments.getD seg.segment_index false = true ∧
      seg.is_inner = params.is_inner := by
  unfold can_use at h
  rw [Bool.and_eq_true] at h
  exact ⟨h.2, by simpa using h.1⟩

theorem exclude_include_avail (st stA : CurrentRing) (seg : ConnectedSegment)
    (hgd : st.available_segments.getD seg.segment_index false = true)
    (hA : stA.available_segments = (include_segment st seg).available_segments) :
    (exclude_segment stA seg).available_segments = st.available_segments := by
  show stA.available_segments.set seg.segment_index true = st.available_segments
  rw [hA]
  show (st.available_segments.set seg.segment_index false).set seg.segment_index true = _
  rw [List.set_set, set_true_getD _ _ hgd]

theorem exclude_include_used (st stA : CurrentRing) (seg : ConnectedSegment)
    (hA : stA.used_segments = (include_segment st seg).used_segments) :
    (exclude_segment stA seg).used_segments = st.used_segments := by
  show stA.used_segments.dropLast = st.used_segments
  rw [hA]
  show (st.used_segments ++ [seg.segment_index]).dropLast = st.used_segments
  exact List.dropLast_concat

theorem explore_candidates_false (params : SearchParams)
    (recurse : NodePos → CurrentRing → Option (CurrentRing × Bool))
    (hrec : ∀ pos st st2, recurse pos st = some (st2, false) →
      st2.available_segments = st.available_segments ∧ st2.used_segments = st.used_segments) :
    ∀ (cands : List ConnectedSegment) (st st2 : CurrentRing),
      explore_candidates params recurse cands st = some (st2, false) →
      st2.available_segments = st.available_segments ∧ st2.used_segments = st.used_segments := by
  intro cands
  induction cands with
  | nil =>
    intro st st2 h
    simp only [explore_candidates, Option.some.injEq, Prod.mk.injEq] at h
    rw [← h.1]
    exact ⟨rfl, rfl⟩
  | cons seg rest ih =>
    intro st st2 h
    simp only [explore_candidates] at h
    by_cases hcond : (can_use params st seg && !is_duplicate params st seg) = true
    · rw [if_pos hcond] at h
      by_cases hclose : params.first_pos = seg.other_side ∧
          3 ≤ (include_segment st seg).used_segments.length
      · rw [if_pos hclose] at h
        simp at h
      · rw [if_neg hclose] at h
        cases hr : recurse seg.other_side (include_segment st seg) with
        | none => rw [hr] at h; simp at h
        | some p =>
          obtain ⟨stA, b⟩ := p
          rw [hr] at h
          cases b with
          | true => simp at h
          | false =>
            have hgd := (can_use_getD params st seg (by
              rw [Bool.and_eq_true] at hcond; exact hcond.1)).1
            obtain ⟨hA1, hA2⟩ := hrec _ _ _ hr
            obtain ⟨h1, h2⟩ := ih (exclude_segment stA seg) st2 h
            refine ⟨?_, ?_⟩
            · rw [h1]
              exact exclude_include_avail st stA seg hgd hA1
            · rw [h2]
              exact exclude_include_used st stA seg hA2
    · rw [if_neg hcond] at h
      exact ih st st2 h

theorem explore_candidates_true (params : SearchParams)
    (recurse : NodePos → CurrentRing → Option (CurrentRing × Bool))
    (P : Nat → Prop)
    (hrecF : ∀ pos st st2, recurse pos st = some (st2, false) →
      st2.available_segments = st.available_segments ∧ st2.used_segments = st.used_segments)
    (hrecT : ∀ pos st st2, recurse pos st = some (st2, true) →
      ∃ ext, ring_extension st st2 ext ∧ (∀ i ∈ ext, P i) ∧ 3 ≤ st2.used_segments.length) :
    ∀ (cands : List ConnectedSegment),
      (∀ seg ∈ cands, seg.is_inner = params.is_inner → P seg.segment_index) →
      ∀ (st st2 : CurrentRing),
        explore_candidates params recurse cands st = some (st2, true) →
        ∃ ext, ring_extension st st2 ext ∧ (∀ i ∈ ext, P i) ∧ 3 ≤ st2.used_segments.length := by
  intro cands
  induction cands with
  | nil =>
    intro _ st st2 h
    simp only [explore_candidates, Option.some.injEq, Prod.mk.injEq] at h
    exact absurd h.2 (by simp)
  | cons seg rest ih =>
    intro hcands st st2 h
    simp only [explore_candidates] at h
    by_cases hcond : (can_use params st seg && !is_duplicate params st seg) = true
    · have hcu : can_use params st seg = true := by
        rw [Bool.and_eq_true] at hcond; exact hcond.1
      obtain ⟨hgd, hflag⟩ := can_use_getD params st seg hcu
      have hilt : seg.segment_index < st.available_segments.length :=
        getD_true_lt _ _ hgd
      have hPi : P seg.segment_index :=
        hcands seg (List.mem_cons_self seg rest) hflag
      rw [if_pos hcond] at h
      by_cases hclose : params.first_pos = seg.other_side ∧
          3 ≤ (include_segment st seg).used_segments.length
      · rw [if_pos hclose] at h
        simp only [Option.some.injEq, Prod.mk.injEq] at h
        refine ⟨[seg.segment_index], ?_, ?_, ?_⟩
        · rw [← h.1]
          refine ⟨rfl, List.nodup_singleton _, ?_, ?_, ?_⟩
          · intro k hk
            rw [List.mem_singleton] at hk
            rw [hk]
            exact hgd
          · show (st.available_segments.set seg.segment_index false).length = _
            exact List.length_set _ _ _
          · intro j
            by_cases hj : j = seg.segment_index
            · rw [hj]
              show (st.available_segments.set seg.segment_index false).getD _ false = _
              rw [getD_set_self _ _ _ hilt]
              simp
            · show (st.available_segments.set seg.segment_index false).getD j false = _
              rw [getD_set_ne _ _ _ _ (fun hc => hj hc.symm)]
              simp [hj]
        · intro k hk
          rw [List.mem_singleton] at hk
          rw [hk]
          exact hPi
        · rw [← h.1]
          exact hclose.2
      · rw [if_neg hclose] at h
        cases hr : recurse seg.other_side (include_segment st seg) with
        | none => rw [hr] at h; simp at h
        | some p =>
          obtain ⟨stA, b⟩ := p
          rw [hr] at h
          cases b with
          | true =>
            simp only [Option.some.injEq, Prod.mk.injEq] at h
            obtain ⟨ext2, hre, hP2, hlen3⟩ := hrecT _ _ _ hr
            obtain ⟨he1, he2, he3, he4, he5⟩ := hre
            have hnotmem : seg.segment_index ∉ ext2 := by
              intro hmem
              have := he3 _ hmem
              rw [show (include_segment st seg).available_segments =
                  st.available_segments.set seg.segment_index false from rfl] at this
              rw [getD_set_self _ _ _ hilt] at this
              exact Bool.false_ne_true this
            refine ⟨seg.segment_index :: ext2, ?_, ?_, ?_⟩
            · rw [← h.1]
              refine ⟨?_, ?_, ?_, ?_, ?_⟩
              · rw [he1]
                show (st.used_segments ++ [seg.segment_index]) ++ ext2 = _
                rw [List.append_assoc]
                rfl
              · exact List.nodup_cons.mpr ⟨hnotmem, he2⟩
              · intro k hk
                rcases List.mem_cons.mp hk with hk | hk
                · rw [hk]; exact hgd
                · have := he3 _ hk
                  rw [show (include_segment st seg).available_segments =
                      st.available_segments.set seg.segment_index false from rfl] at this
                  by_cases hki : k = seg.segment_index
                  · rw [hki] at this
                    rw [getD_set_self _ _ _ hilt] at this
                    exact absurd this (by simp)
                  · rw [getD_set_ne _ _ _ _ (fun hc => hki hc.symm)] at this
                    exact this
              · rw [he4]
                show (st.available_segments.set seg.segment_index false).length = _
                exact List.length_set _ _ _
              · intro j
                rw [he5 j]
                show (if j ∈ ext2 then false
                    else (st.available_segments.set seg.segment_index false).getD j false) = _
                by_cases hj2 : j ∈ ext2
                · simp [hj2, List.mem_cons]
                · by_cases hji : j = seg.segment_index
                  · rw [if_neg hj2, hji, getD_set_self _ _ _ hilt]
                    simp [List.mem_cons]
                  · rw [if_neg hj2, getD_set_ne _ _ _ _ (fun hc => hji hc.symm)]
                    have : j ∉ seg.segment_index :: ext2 := by
                      rw [List.mem_cons]
                      rintro (hc | hc)
                      · exact hji hc
                      · exact hj2 hc
                    simp [this]
            · intro k hk
              rcases List.mem_cons.mp hk with hk | hk
              · rw [hk]; exact hPi
              · exact hP2 _ hk
            · rw [← h.1]; exact hlen3
          | false =>
            obtain ⟨hA1, hA2⟩ := hrecF _ _ _ hr
            obtain ⟨ext, hre, hP2, hlen3⟩ :=
              ih (fun s hs hf => hcands s (List.mem_cons_of_mem seg hs) hf)
                (exclude_segment stA seg) st2 h
            refine ⟨ext, ?_, hP2, hlen3⟩
            exact ring_extension_of_eq _ _ _ _
              (exclude_include_avail st stA seg hgd hA1)
              (exclude_include_used st stA seg hA2) hre
    · rw [if_neg hcond] at h
      exact ih (fun s hs hf => hcands s (List.mem_cons_of_mem seg hs) hf) st st2 h

theorem explore_candidates_complete (params : SearchParams)
    (recurse : NodePos → CurrentRing → Option (CurrentRing × Bool)) (bound : Nat)
    (hrecF : ∀ pos st st2, recurse pos st = some (st2, false) →
      st2.available_segments = st.available_segments ∧ st2.used_segments = st.used_segments)
    (hrecC : ∀ pos st, st.available_segments.count true < bound → (recurse pos st).isSome) :
    ∀ (cands : List ConnectedSegment) (st : CurrentRing),
      st.available_segments.count true < bound + 1 →
      (explore_candidates params recurse cands st).isSome := by
  intro cands
  induction cands with
  | nil => intro st _; simp [explore_candidates]
  | cons seg rest ih =>
    intro st hcount
    simp only [explore_candidates]
    by_cases hcond : (can_use params st seg && !is_duplicate params st seg) = true
    · have hcu : can_use params st seg = true := by
        rw [Bool.and_eq_true] at hcond; exact hcond.1
      have hgd := (can_use_getD params st seg hcu).1
      rw [if_pos hcond]
      by_cases hclose : params.first_pos = seg.other_side ∧
          3 ≤ (include_segment st seg).used_segments.length
      · rw [if_pos hclose]; simp
      · rw [if_neg hclose]
        have hlt : (include_segment st seg).available_segments.count true < bound := by
          have hc := count_true_set_false st.available_segments seg.segment_index hgd
          show (st.available_segments.set seg.segment_index false).count true < bound
          omega
        obtain ⟨p, hp⟩ := Option.isSome_iff_exists.mp
          (hrecC seg.other_side (include_segment st seg) hlt)
        obtain ⟨stA, b⟩ := p
        rw [hp]
        cases b with
        | true => simp
        | false =>
          obtain ⟨hA1, _⟩ := hrecF _ _ _ hp
          apply ih
          rw [exclude_include_avail st stA seg hgd hA1]
          exact hcount
    · rw [if_neg hcond]
      exact ih st hcount

theorem find_ring_from_false (conns : NodePos → List ConnectedSegment) (params : SearchParams) :
    ∀ (fuel : Nat) (pos : NodePos) (st st2 : CurrentRing),
      find_ring_from conns params fuel pos st = some (st2, false) →
      st2.available_segments = st.available_segments ∧ st2.used_segments = st.used_segments := by
  intro fuel
  induction fuel with
  | zero => intro pos st st2 h; simp [find_ring_from] at h
  | succ fuel ih =>
    intro pos st st2 h
    rw [find_ring_from] at h
    exact explore_candidates_false params (find_ring_from conns params fuel) ih (conns pos) st st2 h

theorem find_ring_from_true (conns : NodePos → List ConnectedSegment) (params : SearchParams)
    (P : Nat → Prop)
    (hconns : ∀ pos, ∀ seg ∈ conns pos, seg.is_inner = params.is_inner → P seg.segment_index) :
    ∀ (fuel : Nat) (pos : NodePos) (st st2 : CurrentRing),
      find_ring_from conns params fuel pos st = some (st2, true) →
      ∃ ext, ring_extension st st2 ext ∧ (∀ i ∈ ext, P i) ∧ 3 ≤ st2.used_segments.length := by
  intro fuel
  induction fuel with
  | zero => intro pos st st2 h; simp [find_ring_from] at h
  | succ fuel ih =>
    intro pos st st2 h
    rw [find_ring_from] at h
    exact explore_candidates_true params (find_ring_from conns params fuel) P
      (find_ring_from_false conns params fuel) ih (conns pos) (hconns pos) st st2 h

theorem find_ring_from_complete (conns : NodePos → List ConnectedSegment) (params : SearchParams) :
    ∀ (fuel : Nat) (pos : NodePos) (st : CurrentRing),
      st.available_segments.count true < fuel →
      (find_ring_from conns params fuel pos st).isSome := by
  intro fuel
  induction fuel with
  | zero => intro pos st h; omega
  | succ fuel ih =>
    intro pos st h
    rw [find_ring_from]
    exact explore_candidates_complete params (find_ring_from conns params fuel) fuel
      (find_ring_from_false conns params fuel) ih (conns pos) st h

/-!
Soundness of the adjacency map, and invariants of the seed loop
(`find_ring`) and the ring-collection driver.
-/

theorem get_connections_sound (segs : List NodeDescPair) (p : NodePos) (seg : ConnectedSegment)
    (h : seg ∈ get_connections segs p) :
    seg.segment_index < segs.length ∧
      seg.is_inner = (segs.getD seg.segment_index default).is_inner := by
  unfold get_connections at h
  rw [List.mem_filterMap] at h
  obtain ⟨e, he, heq⟩ := h
  have he2 : e.2 = seg := by
    by_cases hp : e.1 = p
    · rw [if_pos hp] at heq
      exact Option.some.inj heq
    · rw [if_neg hp] at heq
      exact absurd heq (by simp)
  rw [List.mem_flatMap] at he
  obtain ⟨ispair, hmem, hin⟩ := he
  obtain ⟨hlt, hget⟩ := mem_enum_getD segs ispair default hmem
  rcases List.mem_cons.mp hin with hin | hin
  · subst hin
    rw [← he2]
    exact ⟨hlt, (congrArg NodeDescPair.is_inner hget).symm⟩
  · rcases List.mem_cons.mp hin with hin | hin
    · subst hin
      rw [← he2]
      exact ⟨hlt, (congrArg NodeDescPair.is_inner hget).symm⟩
    · exact absurd hin (List.not_mem_nil e)

/-- What a successful `find_ring` pass guarantees about the ring it found
and the updated availability array. -/
def ring_found (segs : List NodeDescPair) (avail avail2 : List Bool) (ring : List Nat) : Prop :=
  ring ≠ [] ∧ 3 ≤ ring.length ∧ ring.Nodup ∧
  (∀ i ∈ ring, i < segs.length ∧ avail.getD i false = true ∧
    (segs.getD i default).is_inner = (segs.getD (ring.headD 0) default).is_inner) ∧
  avail2.length = avail.length ∧
  (∀ j, avail2.getD j false = if j ∈ ring then false else avail.getD j false)

theorem find_ring_seeds_found (segs : List NodeDescPair)
    (conns : NodePos → List ConnectedSegment)
    (hcs : ∀ pos, ∀ seg ∈ conns pos, seg.segment_index < segs.length ∧
      seg.is_inner = (segs.getD seg.segment_index default).is_inner) :
    ∀ (idxs : List Nat) (avail : List Bool) (ring : List Nat) (avail2 : List Bool),
      find_ring_seeds segs conns idxs avail = some (some ring, avail2) →
      avail.length = segs.length →
      ring_found segs avail avail2 ring := by
  intro idxs
  induction idxs with
  | nil =>
    intro avail ring avail2 h _
    simp only [find_ring_seeds, Option.some.injEq, Prod.mk.injEq] at h
    exact absurd h.1 (by simp)
  | cons start_idx rest ih =>
    intro avail ring avail2 h hlen
    simp only [find_ring_seeds] at h
    by_cases hav : avail.getD start_idx false = true
    · rw [if_pos hav] at h
      have hstart_lt : start_idx < avail.length := getD_true_lt _ _ hav
      cases hr : find_ring_from conns
          { first_pos := (segs.getD start_idx default).node1.pos,
            is_inner := (segs.getD start_idx default).is_inner }
          (ring_fuel segs) (segs.getD start_idx default).node2.pos
          { available_segments := avail.set start_idx false,
            used_segments := [start_idx],
            used_vertices :=
              insert_vertex (insert_vertex [] (segs.getD start_idx default).node1.pos)
                (segs.getD start_idx default).node2.pos } with
      | none => rw [hr] at h; simp at h
      | some p =>
        obtain ⟨st2, b⟩ := p
        rw [hr] at h
        cases b with
        | true =>
          simp only [Option.some.injEq, Prod.mk.injEq] at h
          obtain ⟨hring, havail2⟩ := h
          obtain ⟨ext, hre, hP, hlen3⟩ :=
            find_ring_from_true conns _
              (fun i => i < segs.length ∧
                (segs.getD i default).is_inner = (segs.getD start_idx default).is_inner)
              (fun pos seg hseg hflag => by
                obtain ⟨hl, hf⟩ := hcs pos seg hseg
                exact ⟨hl, by rw [← hf, hflag]⟩)
              (ring_fuel segs) _ _ _ hr
          obtain ⟨he1, he2, he3, he4, he5⟩ := hre
          have hringeq : ring = start_idx :: ext := by
            rw [← hring, he1]
            rfl
          have hextnostart : start_idx ∉ ext := by
            intro hmem
            have := he3 _ hmem
            simp only at this
            rw [getD_set_self _ _ _ hstart_lt] at this
            exact Bool.false_ne_true this
          refine ⟨by rw [hringeq]; simp, ?_, ?_, ?_, ?_, ?_⟩
          · rw [← hring]
            exact hlen3
          · rw [hringeq]
            exact List.nodup_cons.mpr ⟨hextnostart, he2⟩
          · intro i hi
            rw [hringeq] at hi
            rw [hringeq]
            simp only [List.headD_cons]
            rcases List.mem_cons.mp hi with hi | hi
            · rw [hi]
              exact ⟨by omega, hav, rfl⟩
            · obtain ⟨hP1, hP2⟩ := hP _ hi
              have hgd := he3 _ hi
              simp only at hgd
              have hine : i ≠ start_idx := fun hc => hextnostart (hc ▸ hi)
              rw [getD_set_ne _ _ _ _ (fun hc => hine hc.symm)] at hgd
              exact ⟨hP1, hgd, hP2⟩
          · rw [← havail2, he4]
            simp [List.length_set]
          · intro j
            rw [← havail2, he5 j]
            simp only
            rw [hringeq]
            by_cases hj2 : j ∈ ext
            · simp [hj2, List.mem_cons]
            · by_cases hji : j = start_idx
              · rw [if_neg hj2, hji, getD_set_self _ _ _ hstart_lt]
                simp [List.mem_cons]
              · rw [if_neg hj2, getD_set_ne _ _ _ _ (fun hc => hji hc.symm)]
                have : j ∉ start_idx :: ext := by
                  rw [List.mem_cons]
                  rintro (hc | hc)
                  · exact hji hc
                  · exact hj2 hc
                simp [this]
        | false =>
          obtain ⟨hA1, _⟩ := find_ring_from_false conns _ (ring_fuel segs) _ _ _ hr
          simp only at hA1
          have h2 : find_ring_seeds segs conns rest
              (st2.available_segments.set start_idx true) = some (some ring, avail2) := h
          have havail_eq : st2.available_segments.set start_idx true = avail := by
            rw [hA1, List.set_set, set_true_getD _ _ hav]
          rw [havail_eq] at h2
          exact ih avail ring avail2 h2 hlen
    · rw [if_neg hav] at h
      exact ih avail ring avail2 h hlen

theorem find_ring_seeds_complete (segs : List NodeDescPair)
    (conns : NodePos → List ConnectedSegment) :
    ∀ (idxs : List Nat) (avail : List Bool),
      avail.length = segs.length →
      (find_ring_seeds segs conns idxs avail).isSome := by
  intro idxs
  induction idxs with
  | nil => intro avail _; simp [find_ring_seeds]
  | cons start_idx rest ih =>
    intro avail hlen
    simp only [find_ring_seeds]
    by_cases hav : avail.getD start_idx false = true
    · rw [if_pos hav]
      have hcount : (avail.set start_idx false).count true < ring_fuel segs := by
        have h1 : (avail.set start_idx false).count true ≤ (avail.set start_idx false).length :=
          List.count_le_length _ _
        rw [List.length_set] at h1
        rw [ring_fuel]
        omega
      obtain ⟨p, hp⟩ := Option.isSome_iff_exists.mp
        (find_ring_from_complete conns
          { first_pos := (segs.getD start_idx default).node1.pos,
            is_inner := (segs.getD start_idx default).is_inner }
          (ring_fuel segs) (segs.getD start_idx default).node2.pos
          { available_segments := avail.set start_idx false,
            used_segments := [start_idx],
            used_vertices :=
              insert_vertex (insert_vertex [] (segs.getD start_idx default).node1.pos)
                (segs.getD start_idx default).node2.pos } hcount)
      obtain ⟨st2, b⟩ := p
      rw [hp]
      cases b with
      | true => simp
      | false =>
        obtain ⟨hA1, _⟩ := find_ring_from_false conns _ (ring_fuel segs) _ _ _ hp
        simp only at hA1
        apply ih
        rw [hA1, List.set_set, set_true_getD _ _ hav]
        exact hlen
    · rw [if_neg hav]
      exact ih avail hlen

/-!
Invariant of the `while unmatched_count > 0` driver, and what it yields at
each exit: on success the collected rings partition the segment indices,
on failure the diagnostic pair counts the built rings and the segments
outside them.
-/

def rings_invariant (segs : List NodeDescPair) (rings : List (List Nat))
    (avail : List Bool) (unmatched : Nat) : Prop :=
  avail.length = segs.length ∧
  rings.flatten.Nodup ∧
  (∀ i ∈ rings.flatten, i < segs.length) ∧
  (∀ j, avail.getD j false =
    if j ∈ rings.flatten then false else decide (j < segs.length)) ∧
  unmatched = segs.length - rings.flatten.length ∧
  (∀ r ∈ rings, r ≠ [] ∧ 3 ≤ r.length ∧
    (∀ i ∈ r, (segs.getD i default).is_inner = (segs.getD (r.headD 0) default).is_inner))

def rings_partition (segs : List NodeDescPair) (rings : List (List Nat)) : Prop :=
  rings.flatten.Nodup ∧
  (∀ i, i ∈ rings.flatten ↔ i < segs.length) ∧
  (∀ r ∈ rings, r ≠ [] ∧ 3 ≤ r.length ∧
    (∀ i ∈ r, (segs.getD i default).is_inner = (segs.getD (r.headD 0) default).is_inner))

theorem rings_invariant_exit (segs : List NodeDescPair) (rings : List (List Nat))
    (avail : List Bool) (hinv : rings_invariant segs rings avail 0) :
    rings_partition segs rings := by
  obtain ⟨hlen, hnd, hlt, hpt, hum, hr⟩ := hinv
  refine ⟨hnd, ?_, hr⟩
  have hsub : rings.flatten.toFinset ⊆ Finset.range segs.length := by
    intro i hi
    rw [List.mem_toFinset] at hi
    rw [Finset.mem_range]
    exact hlt i hi
  have hcard : rings.flatten.toFinset.card = rings.flatten.length :=
    List.toFinset_card_of_nodup hnd
  have hle : rings.flatten.length ≤ segs.length := by
    have := Finset.card_le_card hsub
    rw [hcard, Finset.card_range] at this
    exact this
  have heq : rings.flatten.toFinset = Finset.range segs.length :=
    Finset.eq_of_subset_of_card_le hsub (by rw [hcard, Finset.card_range]; omega)
  intro i
  constructor
  · exact hlt i
  · intro hi
    have hmem : i ∈ rings.flatten.toFinset := by
      rw [heq]
      exact Finset.mem_range.mpr hi
    exact List.mem_toFinset.mp hmem

theorem rings_invariant_step (segs : List NodeDescPair) (rings : List (List Nat))
    (avail avail2 : List Bool) (unmatched : Nat) (ring : List Nat)
    (hinv : rings_invariant segs rings avail unmatched)
    (hf : ring_found segs avail avail2 ring) :
    rings_invariant segs (rings ++ [ring]) avail2 (unmatched - ring.length) := by
  obtain ⟨hlen, hnd, hlt, hpt, hum, hr⟩ := hinv
  obtain ⟨hne, h3, hrnd, hri, hlen2, hpt2⟩ := hf
  have hflat : (rings ++ [ring]).flatten = rings.flatten ++ ring := by
    simp
  have hdisj : ∀ i ∈ ring, i ∉ rings.flatten ∧ i < segs.length := by
    intro i hi
    obtain ⟨hilt, hiav, _⟩ := hri i hi
    have hp := hpt i
    rw [hiav] at hp
    by_cases hmem : i ∈ rings.flatten
    · rw [if_pos hmem] at hp
      exact absurd hp.symm (by simp)
    · exact ⟨hmem, hilt⟩
  refine ⟨by rw [hlen2, hlen], ?_, ?_, ?_, ?_, ?_⟩
  · rw [hflat, List.nodup_append]
    exact ⟨hnd, hrnd, fun i hi hi2 => (hdisj i hi2).1 hi⟩
  · rw [hflat]
    intro i hi
    rcases List.mem_append.mp hi with hi | hi
    · exact hlt i hi
    · exact (hdisj i hi).2
  · intro j
    rw [hpt2 j, hflat]
    by_cases hjr : j ∈ ring
    · simp [hjr]
    · rw [if_neg hjr, hpt j]
      by_cases hjf : j ∈ rings.flatten
      · simp [hjf]
      · have : j ∉ rings.flatten ++ ring := by
          rw [List.mem_append]
          rintro (hc | hc)
          · exact hjf hc
          · exact hjr hc
        simp [hjf, this]
  · rw [hflat, List.length_append, hum]
    have hlenle : rings.flatten.length + ring.length ≤ segs.length ∨ True := Or.inr trivial
    omega
  · intro r hrm
    rcases List.mem_append.mp hrm with hrm | hrm
    · exact hr r hrm
    · rw [List.mem_singleton] at hrm
      rw [hrm]
      refine ⟨hne, h3, ?_⟩
      intro i hi
      exact (hri i hi).2.2

theorem find_polygons_loop_spec (segs : List NodeDescPair)
    (conns : NodePos → List ConnectedSegment)
    (hcs : ∀ pos, ∀ seg ∈ conns pos, seg.segment_index < segs.length ∧
      seg.is_inner = (segs.getD seg.segment_index default).is_inner) :
    ∀ (fuel unmatched : Nat) (avail : List Bool) (rings : List (List Nat)),
      rings_invariant segs rings avail unmatched →
      ∀ res, find_polygons_loop segs conns fuel unmatched avail rings = some res →
        (∀ ringsF, res = Except.ok ringsF → rings_partition segs ringsF) ∧
        (∀ rc uc, res = Except.error (rc, uc) →
          ∃ ringsE : List (List Nat), rc = ringsE.length ∧
            uc = segs.length - ringsE.flatten.length ∧
            ringsE.flatten.Nodup ∧ (∀ i ∈ ringsE.flatten, i < segs.length) ∧
            (∀ r ∈ ringsE, 3 ≤ r.length)) := by
  intro fuel
  induction fuel with
  | zero => intro unmatched avail rings _ res h; simp [find_polygons_loop] at h
  | succ fuel ih =>
    intro unmatched avail rings hinv res h
    rw [find_polygons_loop] at h
    by_cases hz : unmatched = 0
    · rw [if_pos hz] at h
      have hres : res = Except.ok rings := (Option.some.inj h).symm
      constructor
      · intro ringsF hF
        rw [hres] at hF
        have hFe : rings = ringsF := by simpa using hF
        rw [← hFe]
        rw [hz] at hinv
        exact rings_invariant_exit segs rings avail hinv
      · intro rc uc hE
        rw [hres] at hE
        simp at hE
    · rw [if_neg hz] at h
      cases hs : find_ring_seeds segs conns (List.range segs.length) avail with
      | none => rw [hs] at h; simp at h
      | some p =>
        obtain ⟨ringOpt, avail2⟩ := p
        rw [hs] at h
        cases ringOpt with
        | none =>
          have h2 : some (Except.error (rings.length, unmatched)) =
              (some res : Option (Except (Nat × Nat) (List (List Nat)))) := h
          have hres : res = Except.error (rings.length, unmatched) :=
            (Option.some.inj h2).symm
          constructor
          · intro ringsF hF
            rw [hres] at hF
            simp at hF
          · intro rc uc hE
            rw [hres] at hE
            have hpair : rings.length = rc ∧ unmatched = uc := by
              have h3 := Except.error.inj hE
              exact ⟨congrArg Prod.fst h3, congrArg Prod.snd h3⟩
            obtain ⟨hinv1, hinv2, hinv3, hinv4, hinv5, hinv6⟩ := hinv
            refine ⟨rings, hpair.1.symm, ?_, hinv2, hinv3, ?_⟩
            · rw [← hpair.2, hinv5]
            · intro r hrm
              exact (hinv6 r hrm).2.1
        | some ring =>
          have h2 : find_polygons_loop segs conns fuel (unmatched - ring.length) avail2
              (rings ++ [ring]) = some res := h
          have hf := find_ring_seeds_found segs conns hcs _ avail ring avail2 hs hinv.1
          exact ih (unmatched - ring.length) avail2 (rings ++ [ring])
            (rings_invariant_step segs rings avail avail2 unmatched ring hinv hf) res h2

theorem find_polygons_loop_complete (segs : List NodeDescPair)
    (conns : NodePos → List ConnectedSegment)
    (hcs : ∀ pos, ∀ seg ∈ conns pos, seg.segment_index < segs.length ∧
      seg.is_inner = (segs.getD seg.segment_index default).is_inner) :
    ∀ (fuel unmatched : Nat) (avail : List Bool) (rings : List (List Nat)),
      unmatched < fuel → avail.length = segs.length →
      (find_polygons_loop segs conns fuel unmatched avail rings).isSome := by
  intro fuel
  induction fuel with
  | zero => intro unmatched avail rings hu _; omega
  | succ fuel ih =>
    intro unmatched avail rings hu hlen
    rw [find_polygons_loop]
    by_cases hz : unmatched = 0
    · rw [if_pos hz]; simp
    · rw [if_neg hz]
      obtain ⟨p, hp⟩ := Option.isSome_iff_exists.mp
        (find_ring_seeds_complete segs conns (List.range segs.length) avail hlen)
      obtain ⟨ringOpt, avail2⟩ := p
      rw [hp]
      cases ringOpt with
      | none => simp
      | some ring =>
        have hf := find_ring_seeds_found segs conns hcs _ avail ring avail2 hp hlen
        have hpos : 0 < ring.length := List.length_pos.mpr hf.1
        have hlen2 : avail2.length = segs.length := by
          rw [hf.2.2.2.2.1, hlen]
        exact ih (unmatched - ring.length) avail2 (rings ++ [ring]) (by omega) hlen2

/-- The initial state of the driver satisfies the invariant. -/
theorem rings_invariant_init (segs : List NodeDescPair) :
    rings_invariant segs [] (List.replicate segs.length true) segs.length := by
  refine ⟨by simp, by simp, by simp, ?_, by simp, by simp⟩
  intro j
  rw [getD_replicate_true]
  simp

/-- Ring assembly always terminates with a success or failure outcome. -/
theorem find_all_rings_complete (segs : List NodeDescPair) :
    (find_all_rings segs).isSome := by
  unfold find_all_rings
  exact find_polygons_loop_complete segs (get_connections segs)
    (fun pos seg h => get_connections_sound segs pos seg h)
    (segs.length + 1) segs.length (List.replicate segs.length true) []
    (by omega) (by simp)

theorem find_all_rings_ok (segs : List NodeDescPair) (rings : List (List Nat))
    (h : find_all_rings segs = some (Except.ok rings)) :
    rings_partition segs rings := by
  unfold find_all_rings at h
  obtain ⟨hok, _⟩ := find_polygons_loop_spec segs (get_connections segs)
    (fun pos seg hc => get_connections_sound segs pos seg hc)
    (segs.length + 1) segs.length (List.replicate segs.length true) []
    (rings_invariant_init segs) (Except.ok rings) h
  exact hok rings rfl

theorem find_all_rings_error (segs : List NodeDescPair) (rc uc : Nat)
    (h : find_all_rings segs = some (Except.error (rc, uc))) :
    ∃ ringsE : List (List Nat), rc = ringsE.length ∧
      uc = segs.length - ringsE.flatten.length ∧ ringsE.flatten.Nodup ∧
      (∀ i ∈ ringsE.flatten, i < segs.length) ∧ (∀ r ∈ ringsE, 3 ≤ r.length) := by
  unfold find_all_rings at h
  obtain ⟨_, herr⟩ := find_polygons_loop_spec segs (get_connections segs)
    (fun pos seg hc => get_connections_sound segs pos seg hc)
    (segs.length + 1) segs.length (List.replicate segs.length true) []
    (rings_invariant_init segs) (Except.error (rc, uc)) h
  exact herr rc uc rfl

theorem find_polygons_in_multipolygon_isSome (segs : List NodeDescPair) :
    (find_polygons_in_multipolygon segs).isSome := by
  unfold find_polygons_in_multipolygon
  obtain ⟨res, hres⟩ := Option.isSome_iff_exists.mp (find_all_rings_complete segs)
  rw [hres]
  cases res with
  | error e => simp
  | ok rings => simp

theorem find_polygons_in_multipolygon_error (segs : List NodeDescPair) (e : Nat × Nat)
    (h : find_polygons_in_multipolygon segs = some (Except.error e)) :
    find_all_rings segs = some (Except.error e) := by
  unfold find_polygons_in_multipolygon at h
  cases hfa : find_all_rings segs with
  | none => rw [hfa] at h; simp at h
  | some res =>
    rw [hfa] at h
    cases res with
    | error e2 =>
      have h3 : Except.error e2 = (Except.error e : Except (Nat × Nat) (List (List Nat))) := by
        simpa using h
      exact congrArg some h3
    | ok rings => simp at h

theorem find_polygons_in_multipolygon_ok (segs : List NodeDescPair) (polys : List (List Nat))
    (h : find_polygons_in_multipolygon segs = some (Except.ok polys)) :
    ∃ rings : List (List Nat), find_all_rings segs = some (Except.ok rings) ∧
      polys = rings.map (build_polygon segs) := by
  unfold find_polygons_in_multipolygon at h
  cases hfa : find_all_rings segs with
  | none => rw [hfa] at h; simp at h
  | some res =>
    rw [hfa] at h
    cases res with
    | error e2 => simp at h
    | ok rings =>
      have h3 : rings.map (build_polygon segs) = polys := by
        simpa using h
      exact ⟨rings, rfl, h3.symm⟩

theorem build_polygon_walk_length (segs : List NodeDescPair) :
    ∀ (l poly : List Nat), (build_polygon_walk segs l poly).length = poly.length + l.length := by
  intro l
  induction l with
  | nil => intro poly; simp [build_polygon_walk]
  | cons r rest ih =>
    intro poly
    rw [build_polygon_walk, ih]
    simp
    omega

/-- The polygon-building walk emits the seed's first endpoint id and then
one id per ring segment: a ring of N segments becomes N + 1 node ids. -/
theorem build_polygon_length (segs : List NodeDescPair) (ring : List Nat) (h : ring ≠ []) :
    (build_polygon segs ring).length = ring.length + 1 := by
  cases ring with
  | nil => exact absurd rfl h
  | cons r rest =>
    show (build_polygon_walk segs (r :: rest) _).length = _
    rw [build_polygon_walk_length]
    simp
    omega

/-!
Closedness of the assembled rings (claim C4).  `ring_chain segs l p q`
says the segments `l`, taken in order, form a connected walk from
position `p` to position `q`, each segment entered at one endpoint and
left at the other; `closed_ring` closes the walk at the seed segment's
`node1` position, which is exactly the DFS's `first_pos`.  A new
invariant pass over the search shows every ring the assembler builds is
such a closed walk, a successful assembly is a decomposition of the
input into closed homogeneous rings, and on failure the diagnostic pair
counts the actual accumulated rings of a stuck state: an availability
array, pinned pointwise to those rings, from which the seed loop can
close no further ring.
-/

def ring_chain (segs : List NodeDescPair) : List Nat → NodePos → NodePos → Bool
  | [], p, q => p == q
  | i :: rest, p, q =>
    let s := segs.getD i default
    if s.node1.pos = p then ring_chain segs rest s.node2.pos q
    else if s.node2.pos = p then ring_chain segs rest s.node1.pos q
    else false

/-- A ring is closed when its segments chain from the head segment's
`node1` position back to that same position. -/
def closed_ring (segs : List NodeDescPair) (r : List Nat) : Bool :=
  ring_chain segs r (segs.getD (r.headD 0) default).node1.pos
    (segs.getD (r.headD 0) default).node1.pos

/-- Every ring of the collection is a closed walk. -/
def rings_closed (segs : List NodeDescPair) (rings : List (List Nat)) : Prop :=
  ∀ r ∈ rings, closed_ring segs r = true

theorem ring_chain_append (segs : List NodeDescPair) :
    ∀ (l : List Nat) (p q q2 : NodePos) (i : Nat),
      ring_chain segs l p q = true →
      ((segs.getD i default).node1.pos = q ∧ (segs.getD i default).node2.pos = q2) ∨
        ((segs.getD i default).node2.pos = q ∧ (segs.getD i default).node1.pos = q2) →
      ring_chain segs (l ++ [i]) p q2 = true := by
  intro l
  induction l with
  | nil =>
    intro p q q2 i hc hi
    have hpq : p = q := by simpa [ring_chain] using hc
    subst hpq
    simp only [List.nil_append, ring_chain]
    rcases hi with ⟨h1, h2⟩ | ⟨h1, h2⟩
    · rw [if_pos h1]
      simp only [ring_chain, h2]
      simp
    · by_cases hb : (segs.getD i default).node1.pos = p
      · rw [if_pos hb]
        have hq2 : q2 = p := by rw [← h2, hb]
        simp only [ring_chain, h1, hq2]
        simp
      · rw [if_neg hb, if_pos h1]
        simp only [ring_chain, h2]
        simp
  | cons j rest ih =>
    intro p q q2 i hc hi
    simp only [List.cons_append, ring_chain] at hc ⊢
    by_cases h1 : (segs.getD j default).node1.pos = p
    · rw [if_pos h1] at hc ⊢
      exact ih _ _ _ _ hc hi
    · rw [if_neg h1] at hc ⊢
      by_cases h2 : (segs.getD j default).node2.pos = p
      · rw [if_pos h2] at hc ⊢
        exact ih _ _ _ _ hc hi
      · rw [if_neg h2] at hc
        exact absurd hc (by simp)

/-- Each adjacency entry records a genuine endpoint pairing: the segment
touches the key position on one side and `other_side` on the other. -/
theorem get_connections_endpoint (segs : List NodeDescPair) (p : NodePos)
    (seg : ConnectedSegment) (h : seg ∈ get_connections segs p) :
    ((segs.getD seg.segment_index default).node1.pos = p ∧
      (segs.getD seg.segment_index default).node2.pos = seg.other_side) ∨
    ((segs.getD seg.segment_index default).node2.pos = p ∧
      (segs.getD seg.segment_index default).node1.pos = seg.other_side) := by
  unfold get_connections at h
  rw [List.mem_filterMap] at h
  obtain ⟨e, he, heq⟩ := h
  have he2 : e.2 = seg := by
    by_cases hp : e.1 = p
    · rw [if_pos hp] at heq
      exact Option.some.inj heq
    · rw [if_neg hp] at heq
      exact absurd heq (by simp)
  have hep : e.1 = p := by
    by_cases hp : e.1 = p
    · exact hp
    · rw [if_neg hp] at heq
      exact absurd heq (by simp)
  rw [List.mem_flatMap] at he
  obtain ⟨ispair, hmem, hin⟩ := he
  obtain ⟨hlt, hget⟩ := mem_enum_getD segs ispair default hmem
  rcases List.mem_cons.mp hin with hin | hin
  · left
    subst hin
    rw [← he2, ← hep]
    simp only at hget ⊢
    rw [hget]
    exact ⟨rfl, rfl⟩
  · rcases List.mem_cons.mp hin with hin | hin
    · right
      subst hin
      rw [← he2, ← hep]
      simp only at hget ⊢
      rw [hget]
      exact ⟨rfl, rfl⟩
    · exact absurd hin (List.not_mem_nil e)

/-- The DFS preserves the chain shape of `used_segments`: if the state's
used segments chain from `p0` to the current position, any successful
exploration yields used segments chaining from `p0` to `first_pos`. -/
theorem explore_candidates_chain (segs : List NodeDescPair) (params : SearchParams)
    (recurse : NodePos → CurrentRing → Option (CurrentRing × Bool)) (p0 : NodePos)
    (hrecF : ∀ pos st st2, recurse pos st = some (st2, false) →
      st2.available_segments = st.available_segments ∧ st2.used_segments = st.used_segments)
    (hrecT : ∀ pos st st2, recurse pos st = some (st2, true) →
      ring_chain segs st.used_segments p0 pos = true →
      ring_chain segs st2.used_segments p0 params.first_pos = true) :
    ∀ (cands : List ConnectedSegment) (pos : NodePos),
      (∀ seg ∈ cands, seg ∈ get_connections segs pos) →
      ∀ (st st2 : CurrentRing),
        ring_chain segs st.used_segments p0 pos = true →
        explore_candidates params recurse cands st = some (st2, true) →
        ring_chain segs st2.used_segments p0 params.first_pos = true := by
  intro cands
  induction cands with
  | nil =>
    intro pos _ st st2 _ h
    simp only [explore_candidates, Option.some.injEq, Prod.mk.injEq] at h
    exact absurd h.2 (by simp)
  | cons seg rest ih =>
    intro pos hmem st st2 hchain h
    simp only [explore_candidates] at h
    by_cases hcond : (can_use params st seg && !is_duplicate params st seg) = true
    · rw [if_pos hcond] at h
      have hchain2 : ring_chain segs (include_segment st seg).used_segments
          p0 seg.other_side = true := by
        show ring_chain segs (st.used_segments ++ [seg.segment_index]) p0 seg.other_side = true
        exact ring_chain_append segs st.used_segments p0 pos seg.other_side seg.segment_index
          hchain (get_connections_endpoint segs pos seg (hmem seg (List.mem_cons_self seg rest)))
      by_cases hclose : params.first_pos = seg.other_side ∧
          3 ≤ (include_segment st seg).used_segments.length
      · rw [if_pos hclose] at h
        simp only [Option.some.injEq, Prod.mk.injEq] at h
        rw [← h.1, hclose.1]
        exact hchain2
      · rw [if_neg hclose] at h
        cases hr : recurse seg.other_side (include_segment st seg) with
        | none => rw [hr] at h; simp at h
        | some pr =>
          obtain ⟨stA, bb⟩ := pr
          rw [hr] at h
          cases bb with
          | true =>
            simp only [Option.some.injEq, Prod.mk.injEq] at h
            rw [← h.1]
            exact hrecT _ _ _ hr hchain2
          | false =>
            obtain ⟨hA1, hA2⟩ := hrecF _ _ _ hr
            refine ih pos (fun s hs => hmem s (List.mem_cons_of_mem seg hs))
              (exclude_segment stA seg) st2 ?_ h
            rw [exclude_include_used st stA seg hA2]
            exact hchain
    · rw [if_neg hcond] at h
      exact ih pos (fun s hs => hmem s (List.mem_cons_of_mem seg hs)) st st2 hchain h

theorem find_ring_from_chain (segs : List NodeDescPair) (params : SearchParams) (p0 : NodePos) :
    ∀ (fuel : Nat) (pos : NodePos) (st st2 : CurrentRing),
      ring_chain segs st.used_segments p0 pos = true →
      find_ring_from (get_connections segs) params fuel pos st = some (st2, true) →
      ring_chain segs st2.used_segments p0 params.first_pos = true := by
  intro fuel
  induction fuel with
  | zero => intro pos st st2 _ h; simp [find_ring_from] at h
  | succ fuel ih =>
    intro pos st st2 hchain h
    rw [find_ring_from] at h
    exact explore_candidates_chain segs params
      (find_ring_from (get_connections segs) params fuel) p0
      (find_ring_from_false (get_connections segs) params fuel)
      (fun ps sa sb hrb hcb => ih ps sa sb hcb hrb)
      (get_connections segs pos) pos (fun s hs => hs) st st2 hchain h

/-- Every ring returned by the seed loop is a closed walk. -/
theorem find_ring_seeds_closed (segs : List NodeDescPair) :
    ∀ (idxs : List Nat) (avail : List Bool) (ring : List Nat) (avail2 : List Bool),
      find_ring_seeds segs (get_connections segs) idxs avail = some (some ring, avail2) →
      closed_ring segs ring = true := by
  intro idxs
  induction idxs with
  | nil =>
    intro avail ring avail2 h
    simp only [find_ring_seeds, Option.some.injEq, Prod.mk.injEq] at h
    exact absurd h.1 (by simp)
  | cons start_idx rest ih =>
    intro avail ring avail2 h
    simp only [find_ring_seeds] at h
    by_cases hav : avail.getD start_idx false = true
    · rw [if_pos hav] at h
      cases hr : find_ring_from (get_connections segs)
          { first_pos := (segs.getD start_idx default).node1.pos,
            is_inner := (segs.getD start_idx default).is_inner }
          (ring_fuel segs) (segs.getD start_idx default).node2.pos
          { available_segments := avail.set start_idx false,
            used_segments := [start_idx],
            used_vertices :=
              insert_vertex (insert_vertex [] (segs.getD start_idx default).node1.pos)
                (segs.getD start_idx default).node2.pos } with
      | none => rw [hr] at h; simp at h
      | some p =>
        obtain ⟨st2, bb⟩ := p
        rw [hr] at h
        cases bb with
        | true =>
          simp only [Option.some.injEq, Prod.mk.injEq] at h
          obtain ⟨hring, _⟩ := h
          obtain ⟨ext, hre, _, _⟩ :=
            find_ring_from_true (get_connections segs) _ (fun _ => True)
              (fun _ _ _ _ => trivial) (ring_fuel segs) _ _ _ hr
          have hused : st2.used_segments = start_idx :: ext := by
            rw [hre.1]
            rfl
          have hinit : ring_chain segs ([start_idx] : List Nat)
              (segs.getD start_idx default).node1.pos
              (segs.getD start_idx default).node2.pos = true := by
            simp [ring_chain]
          have hchain := find_ring_from_chain segs _
            (segs.getD start_idx default).node1.pos (ring_fuel segs) _ _ _ hinit hr
          unfold closed_ring
          rw [← hring, hused]
          simp only [List.headD_cons]
          rw [← hused]
          exact hchain
        | false =>
          exact ih _ ring avail2 h
    · rw [if_neg hav] at h
      exact ih avail ring avail2 h

/-- The driver preserves closedness of the accumulated rings and, on
failure, reports the counts of the actual stuck state: the rings built so
far (pinned to the availability array pointwise) and the segments outside
them, with the seed search provably unable to close another ring there. -/
theorem find_polygons_loop_chain_spec (segs : List NodeDescPair) :
    ∀ (fuel unmatched : Nat) (avail : List Bool) (rings : List (List Nat)),
      rings_invariant segs rings avail unmatched →
      rings_closed segs rings →
      ∀ res, find_polygons_loop segs (get_connections segs) fuel unmatched avail rings =
          some res →
        (∀ ringsF, res = Except.ok ringsF →
          rings_partition segs ringsF ∧ rings_closed segs ringsF) ∧
        (∀ rc uc, res = Except.error (rc, uc) →
          ∃ (ringsE : List (List Nat)) (avail2 avail3 : List Bool),
            rc = ringsE.length ∧ uc = segs.length - ringsE.flatten.length ∧ uc ≠ 0 ∧
            rings_invariant segs ringsE avail2 uc ∧ rings_closed segs ringsE ∧
            find_ring_seeds segs (get_connections segs) (List.range segs.length) avail2 =
              some (none, avail3)) := by
  intro fuel
  induction fuel with
  | zero => intro unmatched avail rings _ _ res h; simp [find_polygons_loop] at h
  | succ fuel ih =>
    intro unmatched avail rings hinv hcl res h
    rw [find_polygons_loop] at h
    by_cases hz : unmatched = 0
    · rw [if_pos hz] at h
      have hres : res = Except.ok rings := (Option.some.inj h).symm
      constructor
      · intro ringsF hF
        rw [hres] at hF
        have hFe : rings = ringsF := by simpa using hF
        rw [← hFe]
        rw [hz] at hinv
        exact ⟨rings_invariant_exit segs rings avail hinv, hcl⟩
      · intro rc uc hE
        rw [hres] at hE
        simp at hE
    · rw [if_neg hz] at h
      cases hs : find_ring_seeds segs (get_connections segs) (List.range segs.length) avail with
      | none => rw [hs] at h; simp at h
      | some p =>
        obtain ⟨ringOpt, avail2x⟩ := p
        rw [hs] at h
        cases ringOpt with
        | none =>
          have h2 : some (Except.error (rings.length, unmatched)) =
              (some res : Option (Except (Nat × Nat) (List (List Nat)))) := h
          have hres : res = Except.error (rings.length, unmatched) :=
            (Option.some.inj h2).symm
          constructor
          · intro ringsF hF
            rw [hres] at hF
            simp at hF
          · intro rc uc hE
            rw [hres] at hE
            have h3 := Except.error.inj hE
            have hrc : rings.length = rc := congrArg Prod.fst h3
            have huc : unmatched = uc := congrArg Prod.snd h3
            refine ⟨rings, avail, avail2x, hrc.symm, ?_, ?_, ?_, hcl, hs⟩
            · rw [← huc]
              exact hinv.2.2.2.2.1
            · rw [← huc]
              exact hz
            · rw [← huc]
              exact hinv
        | some ring =>
          have h2 : find_polygons_loop segs (get_connections segs) fuel
              (unmatched - ring.length) avail2x (rings ++ [ring]) = some res := h
          have hf := find_ring_seeds_found segs (get_connections segs)
            (fun pos seg hc => get_connections_sound segs pos seg hc)
            _ avail ring avail2x hs hinv.1
          have hcl2 : rings_closed segs (rings ++ [ring]) := by
            intro r hrm
            rcases List.mem_append.mp hrm with hrm | hrm
            · exact hcl r hrm
            · rw [List.mem_singleton] at hrm
              rw [hrm]
              exact find_ring_seeds_closed segs _ avail ring avail2x hs
          exact ih (unmatched - ring.length) avail2x (rings ++ [ring])
            (rings_invariant_step segs rings avail avail2x unmatched ring hinv hf) hcl2 res h2

/-- A successful assembly decomposes the input into disjoint closed
homogeneous rings of length at least 3. -/
theorem find_all_rings_ok_closed (segs : List NodeDescPair) (rings : List (List Nat))
    (h : find_all_rings segs = some (Except.ok rings)) :
    rings_partition segs rings ∧ rings_closed segs rings := by
  unfold find_all_rings at h
  obtain ⟨hok, _⟩ := find_polygons_loop_chain_spec segs (segs.length + 1) segs.length
    (List.replicate segs.length true) [] (rings_invariant_init segs)
    (fun r hr => absurd hr (List.not_mem_nil r)) (Except.ok rings) h
  exact hok rings rfl

/-- On failure the diagnostic pair counts a stuck state's actual rings
and leftover segments. -/
theorem find_polygons_error_report (segs : List NodeDescPair) (rc uc : Nat)
    (h : find_polygons_in_multipolygon segs = some (Except.error (rc, uc))) :
    ∃ (ringsE : List (List Nat)) (avail2 avail3 : List Bool),
      rc = ringsE.length ∧ uc = segs.length - ringsE.flatten.length ∧ uc ≠ 0 ∧
      rings_invariant segs ringsE avail2 uc ∧ rings_closed segs ringsE ∧
      find_ring_seeds segs (get_connections segs) (List.range segs.length) avail2 =
        some (none, avail3) := by
  have h2 := find_polygons_in_multipolygon_error segs (rc, uc) h
  unfold find_all_rings at h2
  obtain ⟨_, herr⟩ := find_polygons_loop_chain_spec segs (segs.length + 1) segs.length
    (List.replicate segs.length true) [] (rings_invariant_init segs)
    (fun r hr => absurd hr (List.not_mem_nil r)) (Except.error (rc, uc)) h2
  exact herr rc uc rfl

/-- When the input admits no decomposition into closed homogeneous rings,
assembly necessarily fails. -/
theorem find_polygons_fails_without_decomposition (segs : List NodeDescPair)
    (hno : ¬∃ rings : List (List Nat), rings_partition segs rings ∧ rings_closed segs rings) :
    ∃ rc uc, find_polygons_in_multipolygon segs = some (Except.error (rc, uc)) := by
  obtain ⟨res, hres⟩ := Option.isSome_iff_exists.mp (find_polygons_in_multipolygon_isSome segs)
  cases res with
  | error e =>
    obtain ⟨rc, uc⟩ := e
    exact ⟨rc, uc, hres⟩
  | ok polys =>
    obtain ⟨rings, hra, _⟩ := find_polygons_in_multipolygon_ok segs polys hres
    exact absurd ⟨rings, find_all_rings_ok_closed segs rings hra⟩ hno

/-!
The single-simple-loop class of inputs (claim C2).  `single_loop` presents
an input whose segments form exactly one simple closed loop of `N`
vertices: `σ` maps input index to loop-edge number, `τ` is its inverse,
`b j` gives segment `j`'s orientation, and all segments share one
`is_inner` class.  The presentation is normalised (`τ 0 = 0`,
`b 0 = false`) by starting the vertex numbering at input segment 0's
`node1`; every single-loop input admits such a presentation.  The lemmas
trace the DFS along the loop: at each vertex exactly two adjacency
entries exist, the backward one is unavailable and the forward one is
taken, so the search closes the ring on the first attempt and the
polygon walk emits `ids 0 .. ids (N - 1), ids 0`.
-/

theorem map_range_getD {α : Type} (f : Nat → α) (N j : Nat) (d : α) (h : j < N) :
    ((List.range N).map f).getD j d = f j := by
  rw [List.getD_eq_getElem?_getD]
  simp [List.getElem?_map, List.getElem?_range h]

theorem flatMap_range_nil {α : Type} (n : Nat) (f : Nat → List α)
    (h : ∀ j < n, f j = []) : (List.range n).flatMap f = [] := by
  induction n with
  | zero => rfl
  | succ n ih =>
    rw [List.range_succ, List.flatMap_append]
    rw [ih (fun j hj => h j (by omega))]
    simp [h n (by omega)]

theorem flatMap_range_one {α : Type} (n j1 : Nat) (f : Nat → List α) (a1 : α)
    (h1 : j1 < n) (hf1 : f j1 = [a1])
    (hrest : ∀ j < n, j ≠ j1 → f j = []) : (List.range n).flatMap f = [a1] := by
  induction n with
  | zero => omega
  | succ n ih =>
    rw [List.range_succ, List.flatMap_append]
    by_cases hn : j1 = n
    · rw [flatMap_range_nil n f (fun j hj => hrest j (by omega) (by omega))]
      subst hn
      simp [hf1]
    · rw [ih (by omega) (fun j hj h => hrest j (by omega) h)]
      simp [hrest n (by omega) (fun h => hn h.symm)]

theorem flatMap_range_two {α : Type} (n j1 j2 : Nat) (f : Nat → List α) (a1 a2 : α)
    (h1 : j1 < n) (h2 : j2 < n) (hne : j1 ≠ j2)
    (hf1 : f j1 = [a1]) (hf2 : f j2 = [a2])
    (hrest : ∀ j < n, j ≠ j1 → j ≠ j2 → f j = []) :
    (List.range n).flatMap f = if j1 < j2 then [a1, a2] else [a2, a1] := by
  induction n with
  | zero => omega
  | succ n ih =>
    rw [List.range_succ, List.flatMap_append]
    by_cases hn1 : j1 = n
    · have hj2n : j2 < n := by omega
      rw [flatMap_range_one n j2 f a2 hj2n hf2
        (fun j hj hjne => hrest j (by omega) (by omega) hjne)]
      subst hn1
      rw [if_neg (by omega)]
      simp [hf1]
    · by_cases hn2 : j2 = n
      · have hj1n : j1 < n := by omega
        rw [flatMap_range_one n j1 f a1 hj1n hf1
          (fun j hj hjne => hrest j (by omega) hjne (by omega))]
        subst hn2
        rw [if_pos (by omega)]
        simp [hf2]
      · rw [ih (by omega) (by omega) (fun j hj ha hb => hrest j (by omega) ha hb)]
        simp [hrest n (by omega) (fun h => hn1 h.symm) (fun h => hn2 h.symm)]

/-- `get_connections` as a flat map over segment indices: segment `j`
contributes its `node1`-keyed entry and then its `node2`-keyed entry. -/
theorem get_connections_eq (segs : List NodeDescPair) (p : NodePos) :
    get_connections segs p = (List.range segs.length).flatMap fun j =>
      (if (segs.getD j default).node1.pos = p then
        [ConnectedSegment.mk (segs.getD j default).node2.pos j (segs.getD j default).is_inner]
      else []) ++
      (if (segs.getD j default).node2.pos = p then
        [ConnectedSegment.mk (segs.getD j default).node1.pos j (segs.getD j default).is_inner]
      else []) := by
  unfold get_connections
  rw [List.enum_eq_zip_range]
  have main : ∀ (l : List NodeDescPair) (n : Nat),
      (((List.range' n l.length).zip l).flatMap fun ispair =>
          [(ispair.2.node1.pos, ConnectedSegment.mk ispair.2.node2.pos ispair.1 ispair.2.is_inner),
           (ispair.2.node2.pos, ConnectedSegment.mk ispair.2.node1.pos ispair.1 ispair.2.is_inner)]).filterMap
          (fun e => if e.1 = p then some e.2 else none) =
        (List.range l.length).flatMap fun j =>
          (if (l.getD j default).node1.pos = p then
            [ConnectedSegment.mk (l.getD j default).node2.pos (n + j) (l.getD j default).is_inner]
          else []) ++
          (if (l.getD j default).node2.pos = p then
            [ConnectedSegment.mk (l.getD j default).node1.pos (n + j) (l.getD j default).is_inner]
          else []) := by
    intro l
    induction l with
    | nil => intro n; rfl
    | cons s rest ih =>
      intro n
      rw [List.length_cons, List.range'_succ, List.zip_cons_cons, List.flatMap_cons,
        List.filterMap_append, List.range_succ_eq_map, List.flatMap_cons, List.flatMap_map]
      congr 1
      · simp only [List.getD_cons_zero, Nat.add_zero]
        by_cases hc1 : s.node1.pos = p <;> by_cases hc2 : s.node2.pos = p <;>
          simp [List.filterMap_cons, hc1, hc2]
      · rw [ih (n + 1)]
        congr 1
        funext j
        have hj : n + 1 + j = n + (j + 1) := by omega
        simp only [Function.comp, List.getD_cons_succ, hj]
  have h0 := main segs 0
  simp only [Nat.zero_add] at h0
  rw [← List.range_eq_range'] at h0
  exact h0

/-- The oriented loop segment number `j` of a canonical single-loop input:
input index `j` carries loop edge `σ j`, from vertex `σ j` to vertex
`(σ j + 1) % N`, with `node1`/`node2` swapped when `b j` is true. -/
def loop_segment (pos : Nat → NodePos) (ids σ : Nat → Nat) (b : Nat → Bool)
    (inner : Bool) (N j : Nat) : NodeDescPair :=
  if b j then
    ⟨⟨ids ((σ j + 1) % N), pos ((σ j + 1) % N)⟩, ⟨ids (σ j), pos (σ j)⟩, inner⟩
  else
    ⟨⟨ids (σ j), pos (σ j)⟩, ⟨ids ((σ j + 1) % N), pos ((σ j + 1) % N)⟩, inner⟩

/-- The claim's precondition, in canonical presentation: the segments form
exactly one simple closed loop with `N` distinct vertices `pos 0 ..
pos (N - 1)` carrying node ids `ids 0 .. ids (N - 1)`.  Input index `j` is
loop edge `σ j` (`τ` is the inverse mapping), in either orientation
(`b j`), all with the same `is_inner` class.  The normalisation `τ 0 = 0`,
`b 0 = false` just starts the vertex numbering at the first input
segment's `node1`, so every single-loop input admits a presentation of
this shape. -/
def single_loop (segs : List NodeDescPair) (N : Nat) (pos : Nat → NodePos)
    (ids σ τ : Nat → Nat) (b : Nat → Bool) (inner : Bool) : Prop :=
  3 ≤ N ∧ b 0 = false ∧ τ 0 = 0 ∧
  (∀ j ∈ List.range N, σ j < N) ∧
  (∀ k ∈ List.range N, τ k < N) ∧
  (∀ j ∈ List.range N, τ (σ j) = j) ∧
  (∀ k ∈ List.range N, σ (τ k) = k) ∧
  (∀ j ∈ List.range N, ∀ k ∈ List.range N, pos j = pos k → j = k) ∧
  segs = (List.range N).map (loop_segment pos ids σ b inner N)

/-- Availability array of the DFS after the loop edges `0 .. v - 1` have
been included: input `j` is still available iff its edge number is `≥ v`. -/
def loop_avail (σ : Nat → Nat) (N v : Nat) : List Bool :=
  (List.range N).map fun j => decide (v ≤ σ j)

/-- `used_segments` after the loop edges `0 .. v - 1` have been included:
their input indices in edge order. -/
def loop_used (τ : Nat → Nat) (v : Nat) : List Nat :=
  (List.range v).map τ

/-- `used_vertices` with the walk standing at vertex `v`: vertices
`0 .. v`, most recently inserted first. -/
def loop_verts (pos : Nat → NodePos) (v : Nat) : List NodePos :=
  ((List.range (v + 1)).map pos).reverse

/-- The whole `CurrentRing` state with the walk standing at vertex `v`. -/
def loop_state (pos : Nat → NodePos) (σ τ : Nat → Nat) (N v : Nat) : CurrentRing :=
  ⟨loop_avail σ N v, loop_used τ v, loop_verts pos v⟩

theorem loop_verts_succ (pos : Nat → NodePos) (v : Nat) :
    loop_verts pos (v + 1) = pos (v + 1) :: loop_verts pos v := by
  unfold loop_verts
  rw [List.range_succ, List.map_append, List.reverse_append]
  rfl

theorem loop_verts_mem (pos : Nat → NodePos) (v : Nat) (p : NodePos) :
    p ∈ loop_verts pos v ↔ ∃ k, k ≤ v ∧ pos k = p := by
  unfold loop_verts
  simp only [List.mem_reverse, List.mem_map, List.mem_range]
  constructor
  · rintro ⟨k, hk, rfl⟩
    exact ⟨k, by omega, rfl⟩
  · rintro ⟨k, hk, rfl⟩
    exact ⟨k, by omega, rfl⟩

theorem loop_used_succ (τ : Nat → Nat) (v : Nat) :
    loop_used τ (v + 1) = loop_used τ v ++ [τ v] := by
  unfold loop_used
  rw [List.range_succ, List.map_append]
  rfl

theorem loop_used_length (τ : Nat → Nat) (v : Nat) : (loop_used τ v).length = v := by
  simp [loop_used]

theorem loop_avail_getD (σ : Nat → Nat) (N v j : Nat) (hj : j < N) :
    (loop_avail σ N v).getD j false = decide (v ≤ σ j) :=
  map_range_getD _ N j false hj

theorem loop_avail_set_step (σ τ : Nat → Nat) (N v : Nat)
    (hστ : σ (τ v) = v) (hinj : ∀ j, j < N → σ j = v → j = τ v) :
    (loop_avail σ N v).set (τ v) false = loop_avail σ N (v + 1) := by
  apply List.ext_getElem
  · simp [loop_avail]
  · intro j h1 h2
    have hjN : j < N := by simpa [loop_avail] using h2
    rw [List.getElem_set]
    simp only [loop_avail, List.getElem_map, List.getElem_range]
    by_cases hj : τ v = j
    · subst hj
      simp [hστ]
    · have hne : σ j ≠ v := fun hc => hj ((hinj j hjN hc).symm)
      rw [if_neg hj]
      simp only [decide_eq_decide]
      omega

/-- The seed loop returns as soon as its first candidate is available and
the DFS from it succeeds. -/
theorem find_ring_seeds_head_success (segs : List NodeDescPair)
    (conns : NodePos → List ConnectedSegment) (start_idx : Nat) (rest : List Nat)
    (avail : List Bool) (st2 : CurrentRing)
    (ha : avail.getD start_idx false = true)
    (hs : find_ring_from conns
        ⟨(segs.getD start_idx default).node1.pos, (segs.getD start_idx default).is_inner⟩
        (ring_fuel segs) (segs.getD start_idx default).node2.pos
        ⟨avail.set start_idx false, [start_idx],
          insert_vertex (insert_vertex [] (segs.getD start_idx default).node1.pos)
            (segs.getD start_idx default).node2.pos⟩ = some (st2, true)) :
    find_ring_seeds segs conns (start_idx :: rest) avail =
      some (some st2.used_segments, st2.available_segments) := by
  rw [find_ring_seeds, ha]
  simp only [if_true, hs]

theorem explore_candidates_skip (params : SearchParams)
    (rec : NodePos → CurrentRing → Option (CurrentRing × Bool))
    (seg : ConnectedSegment) (rest : List ConnectedSegment) (st : CurrentRing)
    (h : can_use params st seg = false) :
    explore_candidates params rec (seg :: rest) st =
      explore_candidates params rec rest st := by
  rw [explore_candidates, h]
  simp

/-!
Degenerate edges (start point equal to end point) are always poisoned: the
walk marks its single visited cell with `p1.y <= p2.y`, which holds with
equality, so no pairable edge survives and the fill loop touches nothing.
-/

def all_poisoned (m : EdgesByY) : Prop :=
  ∀ row ∈ m, ∀ pe ∈ row.2, pe.2.is_poisoned = true

theorem touch_edge_all_poisoned (row : EdgeRow) (edge_idx : Nat) (xc : Int)
    (h : ∀ pe ∈ row, pe.2.is_poisoned = true) :
    ∀ pe ∈ touch_edge row edge_idx xc true, pe.2.is_poisoned = true := by
  induction row with
  | nil =>
    intro pe hpe
    simp only [touch_edge, List.mem_singleton] at hpe
    rw [hpe]
  | cons q rest ih =>
    obtain ⟨i, e⟩ := q
    intro pe hpe
    rw [touch_edge] at hpe
    by_cases hi : i = edge_idx
    · rw [if_pos hi] at hpe
      rcases List.mem_cons.mp hpe with hpe | hpe
      · rw [hpe]
        simp
      · exact h pe (List.mem_cons_of_mem _ hpe)
    · rw [if_neg hi] at hpe
      rcases List.mem_cons.mp hpe with hpe | hpe
      · rw [hpe]
        exact h (i, e) (List.mem_cons_self _ _)
      · exact ih (fun q hq => h q (List.mem_cons_of_mem _ hq)) pe hpe

theorem touch_point_all_poisoned (m : EdgesByY) (yc : Int) (edge_idx : Nat) (xc : Int)
    (h : all_poisoned m) : all_poisoned (touch_point m yc edge_idx xc true) := by
  induction m with
  | nil =>
    intro row hrow
    simp only [touch_point, List.mem_singleton] at hrow
    rw [hrow]
    exact touch_edge_all_poisoned [] edge_idx xc (by simp)
  | cons q rest ih =>
    obtain ⟨ry, row0⟩ := q
    intro row hrow
    rw [touch_point] at hrow
    by_cases hy : ry = yc
    · rw [if_pos hy] at hrow
      rcases List.mem_cons.mp hrow with hrow | hrow
      · rw [hrow]
        exact touch_edge_all_poisoned row0 edge_idx xc
          (h (ry, row0) (List.mem_cons_self _ _))
      · exact h row (List.mem_cons_of_mem _ hrow)
    · rw [if_neg hy] at hrow
      rcases List.mem_cons.mp hrow with hrow | hrow
      · rw [hrow]
        exact h (ry, row0) (List.mem_cons_self _ _)
      · exact ih (fun r hr => h r (List.mem_cons_of_mem _ hr)) row hrow

theorem draw_line_degenerate (edge_idx : Nat) (p : Point) (m : EdgesByY) :
    draw_line edge_idx p p m = touch_point m p.y edge_idx p.x true := by
  have h1 : walk_fuel p p = 1 := by simp [walk_fuel]
  unfold draw_line draw_line_walk
  rw [h1]
  simp [draw_line_go]

theorem mem_enumFrom_snd {α : Type} (l : List α) (n : Nat) (q : Nat × α)
    (h : q ∈ l.enumFrom n) : q.2 ∈ l := by
  induction l generalizing n with
  | nil => simp [List.enumFrom] at h
  | cons a t ih =>
    simp only [List.enumFrom, List.mem_cons] at h
    rcases h with h | h
    · rw [h]
      exact List.mem_cons_self _ _
    · exact List.mem_cons_of_mem _ (ih (n + 1) h)

theorem rasterize_edges_all_poisoned (points : List (Point × Point))
    (h : ∀ e ∈ points, e.1 = e.2) : all_poisoned (rasterize_edges points) := by
  unfold rasterize_edges
  have hgen : ∀ (l : List (Nat × (Point × Point))) (m : EdgesByY),
      (∀ q ∈ l, q.2.1 = q.2.2) → all_poisoned m →
      all_poisoned (l.foldl (fun m2 ip => draw_line ip.1 ip.2.1 ip.2.2 m2) m) := by
    intro l
    induction l with
    | nil => intro m _ hm; exact hm
    | cons q rest ih =>
      intro m hq hm
      rw [List.foldl_cons]
      apply ih _ (fun r hr => hq r (List.mem_cons_of_mem _ hr))
      have hdeg : q.2.1 = q.2.2 := hq q (List.mem_cons_self _ _)
      rw [← hdeg, draw_line_degenerate]
      exact touch_point_all_poisoned m _ _ _ hm
  apply hgen
  · intro q hq
    exact h q.2 (mem_enumFrom_snd points 0 q hq)
  · intro row hrow
    exact absurd hrow (List.not_mem_nil row)

theorem good_edges_nil_of_all_poisoned (row : EdgeRow)
    (h : ∀ pe ∈ row, pe.2.is_poisoned = true) : good_edges row = [] := by
  unfold good_edges
  have hfil : (row.map Prod.snd).filter (fun e => !e.is_poisoned) = [] := by
    rw [List.filter_eq_nil_iff]
    intro e he
    rw [List.mem_map] at he
    obtain ⟨pe, hpe, hpe2⟩ := he
    rw [← hpe2]
    simp [h pe hpe]
  rw [hfil]
  simp

theorem fill_rows_all_poisoned (m : EdgesByY) (h : all_poisoned m) :
    fill_rows m = some [] := by
  induction m with
  | nil => rfl
  | cons q rest ih =>
    obtain ⟨yc, row⟩ := q
    rw [fill_rows]
    rw [good_edges_nil_of_all_poisoned row (h (yc, row) (List.mem_cons_self _ _))]
    rw [ih (fun r hr => h r (List.mem_cons_of_mem _ hr))]
    rfl

/-!
Concrete inputs used by the claims: the single ascending edge that leaves
a scanline with one surviving edge, the axis-aligned rectangle, the
degenerate point-edges, the triangle relation, the dangling two-segment
relation, and a mixed inner/outer relation sharing a vertex.
-/

/-- A single edge (0,0)-(0,2): its rows y = 1 and y = 2 each keep exactly
one non-poisoned edge record. -/
def single_edge_points : List (Point × Point) := [(⟨0, 0⟩, ⟨0, 2⟩)]

/-- A single edge (0,0)-(0,3), same odd-surviving-edge shape. -/
def tall_edge_points : List (Point × Point) := [(⟨0, 0⟩, ⟨0, 3⟩)]

/-- The rectangle contour of the spec, corners (0,0)-(10,0)-(10,5)-(0,5)-(0,0). -/
def rect_points : List (Point × Point) :=
  [(⟨0, 0⟩, ⟨10, 0⟩), (⟨10, 0⟩, ⟨10, 5⟩), (⟨10, 5⟩, ⟨0, 5⟩), (⟨0, 5⟩, ⟨0, 0⟩)]

/-- The pixels the code actually fills for `rect_points`: rows 1 through 5,
columns 0 through 10, in fill order. -/
def rect_block : List (Int × Int) :=
  (List.range 5).flatMap fun j => (List.range 11).map fun i => ((i : Int), (j : Int) + 1)

/-- Two degenerate point-edges (start equal to end). -/
def degenerate_points : List (Point × Point) := [(⟨5, 7⟩, ⟨5, 7⟩), (⟨5, 7⟩, ⟨5, 7⟩)]

/-- The triangle relation of the spec: segments (1,2), (2,3), (3,1), all outer. -/
def tri_segs : List NodeDescPair :=
  [⟨⟨1, (10, 10)⟩, ⟨2, (20, 10)⟩, false⟩,
   ⟨⟨2, (20, 10)⟩, ⟨3, (15, 20)⟩, false⟩,
   ⟨⟨3, (15, 20)⟩, ⟨1, (10, 10)⟩, false⟩]

/-- The triangle's vertex positions, as a canonical loop presentation. -/
def tri_pos (k : Nat) : NodePos :=
  if k = 0 then (10, 10) else if k = 1 then (20, 10) else (15, 20)

/-- The triangle's vertex ids, as a canonical loop presentation. -/
def tri_ids (k : Nat) : Nat := k + 1

/-- The dangling relation of the spec: segments (1,2), (3,4), no ring closes. -/
def dangling_segs : List NodeDescPair :=
  [⟨⟨1, (10, 10)⟩, ⟨2, (20, 10)⟩, false⟩,
   ⟨⟨3, (15, 20)⟩, ⟨4, (25, 20)⟩, false⟩]

/-- An outer triangle and an inner triangle sharing the vertex with id 1. -/
def mixed_segs : List NodeDescPair :=
  [⟨⟨1, (10, 10)⟩, ⟨2, (20, 10)⟩, false⟩,
   ⟨⟨2, (20, 10)⟩, ⟨3, (15, 20)⟩, false⟩,
   ⟨⟨3, (15, 20)⟩, ⟨1, (10, 10)⟩, false⟩,
   ⟨⟨1, (10, 10)⟩, ⟨4, (5, 5)⟩, true⟩,
   ⟨⟨4, (5, 5)⟩, ⟨5, (0, 9)⟩, true⟩,
   ⟨⟨5, (0, 9)⟩, ⟨1, (10, 10)⟩, true⟩]

/-- C1: the claim says a row with an odd number of surviving edges drops
the orphan silently and `fill_contour` still returns a Figure.  The code
instead reads `good_edges[idx + 1]` one past the end and panics: on the
single edge (0,0)-(0,2), rows y = 1 and y = 2 each keep exactly one
surviving edge and the call halts with an index-out-of-bounds panic
(embedded as `none`) instead of returning a Figure. -/
theorem claim1_odd_row_panics : fill_contour single_edge_points = none := by decide

/-- C2 counterexample: on the triangle segments (1,2), (2,3), (3,1) the
code returns the single polygon [1, 2, 3, 1] - four node ids with the
first node repeated at the end - not the open three-id sequence [1, 2, 3]
the claim states. -/
theorem claim2_counterexample :
    find_polygons_in_multipolygon tri_segs = some (Except.ok [[1, 2, 3, 1]]) ∧
      find_polygons_in_multipolygon tri_segs ≠ some (Except.ok [[1, 2, 3]]) := by
  refine ⟨rfl, fun h => ?_⟩
  have h1 : find_polygons_in_multipolygon tri_segs = some (Except.ok [[1, 2, 3, 1]]) := rfl
  rw [h1] at h
  simp at h

/-- C2 amended: on every input whose segments form exactly one simple
closed loop of `N >= 3` segments (any input order, any per-segment
orientation, presented canonically by `single_loop`), ring assembly
succeeds and returns exactly one Polygon of `N + 1` node ids: the walk
`ids 0, ids 1, .., ids (N - 1)` over the loop vertices closed by an
explicit repetition of the first node id - not the claim's open
`N`-id sequence. -/
theorem claim2_closed_walk (segs : List NodeDescPair) (N : Nat) (pos : Nat → NodePos)
    (ids σ τ : Nat → Nat) (b : Nat → Bool) (inner : Bool)
    (hloop : single_loop segs N pos ids σ τ b inner) :
    find_polygons_in_multipolygon segs =
      some (Except.ok [(List.range N).map ids ++ [ids 0]]) := by
  obtain ⟨hN, hb0, hτ0, hσR, hτR, hτσR, hστR, hposR, hsegs⟩ := hloop
  have hσ : ∀ j, j < N → σ j < N := fun j hj => hσR j (List.mem_range.mpr hj)
  have hτ : ∀ k, k < N → τ k < N := fun k hk => hτR k (List.mem_range.mpr hk)
  have hτσ : ∀ j, j < N → τ (σ j) = j := fun j hj => hτσR j (List.mem_range.mpr hj)
  have hστ : ∀ k, k < N → σ (τ k) = k := fun k hk => hστR k (List.mem_range.mpr hk)
  have hpos : ∀ j k, j < N → k < N → pos j = pos k → j = k := fun j k hj hk h =>
    hposR j (List.mem_range.mpr hj) k (List.mem_range.mpr hk) h
  have hσ0 : σ 0 = 0 := by
    have h := hστ 0 (by omega)
    rw [hτ0] at h
    exact h
  have hlen : segs.length = N := by rw [hsegs]; simp
  have hget : ∀ j, j < N → segs.getD j default = loop_segment pos ids σ b inner N j := by
    intro j hj
    rw [hsegs]
    exact map_range_getD _ N j default hj
  have hinj_τ : ∀ j, j < N → ∀ v, v < N → σ j = v → j = τ v := by
    intro j hj v hv hjv
    have h := hτσ j hj
    rw [hjv] at h
    exact h.symm
  -- adjacency lists along the loop
  have conns_at : ∀ v, 1 ≤ v → v < N →
      get_connections segs (pos v) =
        (if τ v < τ (v - 1) then
          [⟨pos ((v + 1) % N), τ v, inner⟩, ⟨pos (v - 1), τ (v - 1), inner⟩]
        else
          [⟨pos (v - 1), τ (v - 1), inner⟩, ⟨pos ((v + 1) % N), τ v, inner⟩]) := by
    intro v hv1 hv2
    rw [get_connections_eq, hlen]
    refine flatMap_range_two N (τ v) (τ (v - 1)) _ _ _ (hτ v hv2) (hτ (v - 1) (by omega))
      ?_ ?_ ?_ ?_
    · intro hc
      have h1 := hστ v hv2
      have h2 := hστ (v - 1) (by omega)
      rw [hc] at h1
      omega
    · rw [hget (τ v) (hτ v hv2)]
      have hσv : σ (τ v) = v := hστ v hv2
      have hmodlt : (v + 1) % N < N := Nat.mod_lt _ (by omega)
      have hmodne : (v + 1) % N ≠ v := by
        rcases Nat.lt_or_ge (v + 1) N with h | h
        · rw [Nat.mod_eq_of_lt h]; omega
        · rw [show v + 1 = N from by omega, Nat.mod_self]; omega
      have hpne : pos ((v + 1) % N) ≠ pos v := fun h => hmodne (hpos _ _ hmodlt hv2 h)
      unfold loop_segment
      rw [hσv]
      by_cases hbj : b (τ v) <;> simp [hbj, hpne]
    · rw [hget (τ (v - 1)) (hτ (v - 1) (by omega))]
      have hσv : σ (τ (v - 1)) = v - 1 := hστ (v - 1) (by omega)
      have hmod : (v - 1 + 1) % N = v := by
        rw [show v - 1 + 1 = v from by omega, Nat.mod_eq_of_lt hv2]
      have hpne : pos (v - 1) ≠ pos v := by
        intro h
        have := hpos _ _ (by omega) hv2 h
        omega
      unfold loop_segment
      rw [hσv, hmod]
      by_cases hbj : b (τ (v - 1)) <;> simp [hbj, hpne]
    · intro j hj hne1 hne2
      rw [hget j hj]
      have hσjv : σ j ≠ v := fun hc => hne1 (hinj_τ j hj v hv2 hc)
      have hσjv1 : σ j ≠ v - 1 := fun hc => hne2 (hinj_τ j hj (v - 1) (by omega) hc)
      have hσjN := hσ j hj
      have hmodlt : (σ j + 1) % N < N := Nat.mod_lt _ (by omega)
      have hmodne : (σ j + 1) % N ≠ v := by
        rcases Nat.lt_or_ge (σ j + 1) N with h | h
        · rw [Nat.mod_eq_of_lt h]; omega
        · rw [show σ j + 1 = N from by omega, Nat.mod_self]; omega
      have hp1 : pos (σ j) ≠ pos v := fun h => hσjv (hpos _ _ hσjN hv2 h)
      have hp2 : pos ((σ j + 1) % N) ≠ pos v := fun h => hmodne (hpos _ _ hmodlt hv2 h)
      unfold loop_segment
      by_cases hbj : b j <;> simp [hbj, hp1, hp2]
  -- filter evaluations at vertex v
  have hcanA : ∀ v, 1 ≤ v → v < N →
      can_use ⟨pos 0, inner⟩ (loop_state pos σ τ N v) ⟨pos ((v + 1) % N), τ v, inner⟩ = true := by
    intro v hv1 hv2
    unfold can_use loop_state
    rw [loop_avail_getD σ N v (τ v) (hτ v hv2), hστ v hv2]
    simp
  have hcanB : ∀ v, 1 ≤ v → v < N →
      can_use ⟨pos 0, inner⟩ (loop_state pos σ τ N v) ⟨pos (v - 1), τ (v - 1), inner⟩ = false := by
    intro v hv1 hv2
    unfold can_use loop_state
    rw [loop_avail_getD σ N v (τ (v - 1)) (hτ (v - 1) (by omega)), hστ (v - 1) (by omega)]
    simp only [beq_self_eq_true, Bool.true_and, decide_eq_false_iff_not]
    omega
  have hdupA : ∀ v, 1 ≤ v → v < N →
      is_duplicate ⟨pos 0, inner⟩ (loop_state pos σ τ N v) ⟨pos ((v + 1) % N), τ v, inner⟩ = false := by
    intro v hv1 hv2
    unfold is_duplicate loop_state
    by_cases hvN : v + 1 = N
    · rw [show (v + 1) % N = 0 from by rw [hvN, Nat.mod_self]]
      simp
    · rw [Nat.mod_eq_of_lt (by omega)]
      have hmem : pos (v + 1) ∉ loop_verts pos v := by
        rw [loop_verts_mem]
        rintro ⟨k, hk, hkeq⟩
        have := hpos k (v + 1) (by omega) (by omega) hkeq
        omega
      simp [hmem]
  -- including the forward segment advances the state
  have hinc : ∀ v, 1 ≤ v → v + 1 < N →
      include_segment (loop_state pos σ τ N v) ⟨pos ((v + 1) % N), τ v, inner⟩ =
        loop_state pos σ τ N (v + 1) := by
    intro v hv1 hv2
    have hmod : (v + 1) % N = v + 1 := Nat.mod_eq_of_lt hv2
    unfold include_segment loop_state
    simp only [hmod, CurrentRing.mk.injEq]
    refine ⟨?_, ?_, ?_⟩
    · exact loop_avail_set_step σ τ N v (hστ v (by omega))
        (fun j hj hc => hinj_τ j hj v (by omega) hc)
    · exact (loop_used_succ τ v).symm
    · unfold insert_vertex
      rw [if_neg, ← loop_verts_succ]
      rw [loop_verts_mem]
      rintro ⟨k, hk, hkeq⟩
      have := hpos k (v + 1) (by omega) (by omega) hkeq
      omega
  have hinc_close :
      include_segment (loop_state pos σ τ N (N - 1)) ⟨pos ((N - 1 + 1) % N), τ (N - 1), inner⟩ =
        (⟨loop_avail σ N N, loop_used τ N, loop_verts pos (N - 1)⟩ : CurrentRing) := by
    unfold include_segment loop_state
    simp only [CurrentRing.mk.injEq]
    refine ⟨?_, ?_, ?_⟩
    · have h := loop_avail_set_step σ τ N (N - 1)
        (hστ (N - 1) (by omega)) (fun j hj hc => hinj_τ j hj (N - 1) (by omega) hc)
      rw [show N - 1 + 1 = N from by omega] at h
      exact h
    · rw [← loop_used_succ, show N - 1 + 1 = N from by omega]
    · rw [show (N - 1 + 1) % N = 0 from by rw [show N - 1 + 1 = N from by omega, Nat.mod_self]]
      unfold insert_vertex
      rw [if_pos]
      rw [loop_verts_mem]
      exact ⟨0, by omega, rfl⟩
  -- the closing exploration at vertex N - 1
  have hclose : ∀ (rec : NodePos → CurrentRing → Option (CurrentRing × Bool))
      (rest : List ConnectedSegment),
      explore_candidates ⟨pos 0, inner⟩ rec
          (⟨pos ((N - 1 + 1) % N), τ (N - 1), inner⟩ :: rest) (loop_state pos σ τ N (N - 1)) =
        some (⟨loop_avail σ N N, loop_used τ N, loop_verts pos (N - 1)⟩, true) := by
    intro rec rest
    rw [explore_candidates, hcanA (N - 1) (by omega) (by omega),
      hdupA (N - 1) (by omega) (by omega)]
    simp only [Bool.not_false, Bool.and_self, if_true, hinc_close]
    rw [if_pos]
    constructor
    · rw [show (N - 1 + 1) % N = 0 from by rw [show N - 1 + 1 = N from by omega, Nat.mod_self]]
    · show 3 ≤ (loop_used τ N).length
      rw [loop_used_length]
      omega
  -- one non-closing exploration step at vertex v
  have hstep : ∀ (rec : NodePos → CurrentRing → Option (CurrentRing × Bool))
      (rest : List ConnectedSegment) (v : Nat), 1 ≤ v → v + 1 < N →
      rec (pos (v + 1)) (loop_state pos σ τ N (v + 1)) =
        some (⟨loop_avail σ N N, loop_used τ N, loop_verts pos (N - 1)⟩, true) →
      explore_candidates ⟨pos 0, inner⟩ rec
          (⟨pos ((v + 1) % N), τ v, inner⟩ :: rest) (loop_state pos σ τ N v) =
        some (⟨loop_avail σ N N, loop_used τ N, loop_verts pos (N - 1)⟩, true) := by
    intro rec rest v hv1 hv2 hrec
    rw [explore_candidates, hcanA v (by omega) (by omega), hdupA v (by omega) (by omega)]
    simp only [Bool.not_false, Bool.and_self, if_true, hinc v hv1 hv2]
    rw [if_neg]
    · rw [Nat.mod_eq_of_lt hv2, hrec]
    · rintro ⟨h1, _⟩
      rw [Nat.mod_eq_of_lt hv2] at h1
      have := hpos 0 (v + 1) (by omega) (by omega) h1
      omega
  -- the whole walk from vertex v to the close
  have htrace : ∀ d v fuel, 1 ≤ v → v < N → N - 1 - v = d → N - v ≤ fuel →
      find_ring_from (get_connections segs) ⟨pos 0, inner⟩ fuel (pos v)
          (loop_state pos σ τ N v) =
        some (⟨loop_avail σ N N, loop_used τ N, loop_verts pos (N - 1)⟩, true) := by
    intro d
    induction d with
    | zero =>
      intro v fuel hv1 hv2 hvd hfuel
      have hvN : v = N - 1 := by omega
      subst hvN
      obtain ⟨fuel, rfl⟩ : ∃ f, fuel = f + 1 := ⟨fuel - 1, by omega⟩
      rw [find_ring_from, conns_at (N - 1) (by omega) (by omega)]
      by_cases hord : τ (N - 1) < τ (N - 1 - 1)
      · rw [if_pos hord]
        exact hclose _ _
      · rw [if_neg hord]
        rw [explore_candidates_skip _ _ _ _ _ (hcanB (N - 1) (by omega) (by omega))]
        exact hclose _ _
    | succ d ih =>
      intro v fuel hv1 hv2 hvd hfuel
      have hv2' : v + 1 < N := by omega
      obtain ⟨fuel, rfl⟩ : ∃ f, fuel = f + 1 := ⟨fuel - 1, by omega⟩
      have hrec : find_ring_from (get_connections segs) ⟨pos 0, inner⟩ fuel (pos (v + 1))
          (loop_state pos σ τ N (v + 1)) =
          some (⟨loop_avail σ N N, loop_used τ N, loop_verts pos (N - 1)⟩, true) :=
        ih (v + 1) fuel (by omega) (by omega) (by omega) (by omega)
      rw [find_ring_from, conns_at v (by omega) (by omega)]
      by_cases hord : τ v < τ (v - 1)
      · rw [if_pos hord]
        exact hstep _ _ v hv1 hv2' hrec
      · rw [if_neg hord]
        rw [explore_candidates_skip _ _ _ _ _ (hcanB v (by omega) (by omega))]
        exact hstep _ _ v hv1 hv2' hrec
  -- the seed loop: index 0 is available and its DFS closes the loop
  have hrange : List.range N = 0 :: (List.range (N - 1)).map Nat.succ := by
    conv_lhs => rw [show N = (N - 1) + 1 from by omega]
    exact List.range_succ_eq_map _
  have hn1pos : (segs.getD 0 default).node1.pos = pos 0 := by
    rw [hget 0 (by omega)]
    unfold loop_segment
    simp [hb0, hσ0]
  have hn2pos : (segs.getD 0 default).node2.pos = pos 1 := by
    rw [hget 0 (by omega)]
    unfold loop_segment
    simp [hb0, hσ0, Nat.mod_eq_of_lt (show 1 < N by omega)]
  have hn1in : (segs.getD 0 default).is_inner = inner := by
    rw [hget 0 (by omega)]
    unfold loop_segment
    by_cases hbj : b 0 <;> simp [hbj]
  have hst : (⟨(List.replicate N true).set 0 false, [0],
      insert_vertex (insert_vertex [] (pos 0)) (pos 1)⟩ : CurrentRing) =
      loop_state pos σ τ N 1 := by
    unfold loop_state
    simp only [CurrentRing.mk.injEq]
    refine ⟨?_, ?_, ?_⟩
    · have h0 : List.replicate N true = loop_avail σ N 0 := by
        apply List.ext_getElem
        · simp [loop_avail]
        · intro j h1 h2
          simp [loop_avail]
      rw [h0]
      have h := loop_avail_set_step σ τ N 0 (hστ 0 (by omega))
        (fun j hj hc => hinj_τ j hj 0 (by omega) hc)
      rw [hτ0] at h
      exact h
    · unfold loop_used
      rw [show List.range 1 = [0] from rfl]
      simp [hτ0]
    · have hne : pos 1 ≠ pos 0 := by
        intro h
        have := hpos 1 0 (by omega) (by omega) h
        omega
      simp only [insert_vertex, List.not_mem_nil, if_neg, if_false]
      rw [if_neg (by simp [hne])]
      simp [loop_verts, List.range_succ]
  have hseed : find_ring_seeds segs (get_connections segs) (List.range N)
      (List.replicate N true) =
      some (some (loop_used τ N), loop_avail σ N N) := by
    rw [hrange]
    refine find_ring_seeds_head_success segs _ 0 _ _
      ⟨loop_avail σ N N, loop_used τ N, loop_verts pos (N - 1)⟩ ?_ ?_
    · rw [getD_replicate_true]
      simp
      omega
    · rw [hn1pos, hn2pos, hn1in, hst]
      rw [show ring_fuel segs = N + 1 from by unfold ring_fuel; rw [hlen]]
      exact htrace (N - 1 - 1) 1 (N + 1) (by omega) (by omega) rfl (by omega)
  -- the driver loop: one ring, then success
  have hzero2 : ∀ f, 1 ≤ f → ∀ avail rings,
      find_polygons_loop segs (get_connections segs) f 0 avail rings =
        some (Except.ok rings) := by
    intro f hf avail rings
    obtain ⟨g, rfl⟩ : ∃ g, f = g + 1 := ⟨f - 1, by omega⟩
    rw [find_polygons_loop]
    simp
  have hdrv : find_polygons_loop segs (get_connections segs) (N + 1) N
      (List.replicate N true) [] = some (Except.ok [loop_used τ N]) := by
    rw [find_polygons_loop, if_neg (show ¬N = 0 by omega), hlen, hseed]
    show find_polygons_loop segs (get_connections segs) N (N - (loop_used τ N).length)
      (loop_avail σ N N) ([] ++ [loop_used τ N]) = some (Except.ok [loop_used τ N])
    rw [loop_used_length, Nat.sub_self, List.nil_append]
    exact hzero2 N (by omega) _ _
  have hall : find_all_rings segs = some (Except.ok [loop_used τ N]) := by
    unfold find_all_rings
    rw [hlen]
    exact hdrv
  -- building the polygon from the single ring
  have hwalk : ∀ d k poly, k + d ≤ N → poly.getLastD 0 = ids (k % N) →
      build_polygon_walk segs ((List.range' k d).map τ) poly =
        poly ++ (List.range' k d).map (fun t => ids ((t + 1) % N)) := by
    intro d
    induction d with
    | zero =>
      intro k poly _ _
      simp [build_polygon_walk]
    | succ d ih =>
      intro k poly hkd hlast
      rw [List.range'_succ, List.map_cons]
      have hkN : k < N := by omega
      simp only [build_polygon_walk]
      rw [hget (τ k) (hτ k hkN)]
      have hpush : (if poly.getLastD 0 = (loop_segment pos ids σ b inner N (τ k)).node1.id
          then (loop_segment pos ids σ b inner N (τ k)).node2.id
          else (loop_segment pos ids σ b inner N (τ k)).node1.id) = ids ((k + 1) % N) := by
        have hσk : σ (τ k) = k := hστ k hkN
        have hlast2 : poly.getLastD 0 = ids k := by rw [hlast, Nat.mod_eq_of_lt hkN]
        unfold loop_segment
        rw [hσk]
        by_cases hbk : b (τ k)
        · simp only [hbk, if_true]
          by_cases hid : poly.getLastD 0 = ids ((k + 1) % N)
          · rw [if_pos hid, ← hlast2, hid]
          · rw [if_neg hid]
        · simp only [hbk, Bool.false_eq_true, if_false]
          rw [if_pos hlast2]
      rw [hpush]
      rw [ih (k + 1) (poly ++ [ids ((k + 1) % N)]) (by omega) (by rw [List.getLastD_concat])]
      simp
  have hcons2 : loop_used τ N = 0 :: (List.range' 1 (N - 1)).map τ := by
    unfold loop_used
    rw [List.range_eq_range']
    conv_lhs => rw [show N = (N - 1) + 1 from by omega]
    rw [List.range'_succ]
    simp [hτ0]
  have hback : (0 : Nat) :: (List.range' 1 (N - 1)).map τ = (List.range' 0 N).map τ := by
    conv_rhs => rw [show N = (N - 1) + 1 from by omega]
    rw [List.range'_succ]
    simp [hτ0]
  have hsplit : (List.range' 0 N).map (fun t => ids ((t + 1) % N)) =
      (List.range' 1 (N - 1)).map ids ++ [ids 0] := by
    conv_lhs => rw [show N = (N - 1) + 1 from by omega]
    rw [List.range'_concat, List.map_append]
    congr 1
    · rw [List.range'_eq_map_range, List.range'_eq_map_range, List.map_map, List.map_map]
      apply List.map_congr_left
      intro a ha
      rw [List.mem_range] at ha
      simp only [Function.comp_apply]
      congr 1
      rw [show 0 + a + 1 = 1 + a from by omega, Nat.mod_eq_of_lt (by omega)]
    · simp only [List.map_cons, List.map_nil]
      congr 1
      rw [show 0 + 1 * (N - 1) + 1 = N from by omega,
        show N - 1 + 1 = N from by omega, Nat.mod_self]
  have hfront : (List.range N).map ids = ids 0 :: (List.range' 1 (N - 1)).map ids := by
    rw [List.range_eq_range']
    conv_lhs => rw [show N = (N - 1) + 1 from by omega]
    rw [List.range'_succ]
    simp
  have hbuild : build_polygon segs (loop_used τ N) = (List.range N).map ids ++ [ids 0] := by
    rw [hcons2]
    simp only [build_polygon]
    rw [hget 0 (by omega)]
    have hseedid : (loop_segment pos ids σ b inner N 0).node1.id = ids 0 := by
      unfold loop_segment
      simp [hb0, hσ0]
    rw [hseedid, hback]
    rw [hwalk N 0 [ids 0] (by omega) (by simp)]
    rw [hsplit, hfront]
    simp
  unfold find_polygons_in_multipolygon
  rw [hall]
  simp only [List.map_cons, List.map_nil]
  rw [hbuild]

/-- C2 witness: the triangle relation is a canonical single loop with
`N = 3`, and the amended theorem applied to it yields the closed walk
`[1, 2, 3, 1]`. -/
theorem claim2_witness :
    single_loop tri_segs 3 tri_pos tri_ids (fun j => j) (fun k => k) (fun _ => false) false ∧
      find_polygons_in_multipolygon tri_segs =
        some (Except.ok [(List.range 3).map tri_ids ++ [tri_ids 0]]) :=
  ⟨by unfold single_loop; decide,
    claim2_closed_walk tri_segs 3 tri_pos tri_ids (fun j => j) (fun k => k) (fun _ => false)
      false (by unfold single_loop; decide)⟩

/-- C3 counterexample: the claim says the rectangle fills the 11 x 6 block
with boundary row y = 0 fully filled; the code fills `rect_block`, which
does not contain the pixel (0, 0) (row y = 0 is entirely poisoned away). -/
theorem claim3_counterexample :
    fill_contour rect_points = some rect_block ∧
      ((0 : Int), (0 : Int)) ∉ rect_block := by
  exact ⟨by decide, by decide⟩

/-- C3 amended: the rectangle contour fills exactly the 11 x 5 inclusive
block of columns 0..10 and rows 1..5: every filled pixel lies in the
block, every pixel of the block is filled (so boundary row y = 5 is fully
filled), and no pixel of row y = 0 is filled. -/
theorem claim3_block :
    fill_contour rect_points = some rect_block ∧
      (∀ px ∈ rect_block, 0 ≤ px.1 ∧ px.1 ≤ 10 ∧ 1 ≤ px.2 ∧ px.2 ≤ 5) ∧
      (∀ x ∈ Finset.Icc (0 : Int) 10, ∀ y ∈ Finset.Icc (1 : Int) 5, (x, y) ∈ rect_block) ∧
      (∀ x ∈ Finset.Icc (0 : Int) 10, (x, (0 : Int)) ∉ rect_block) := by
  refine ⟨by decide, by decide, by decide, by decide⟩

/-- C4: when the segments admit no decomposition into disjoint closed
homogeneous rings of length at least 3, ring assembly fails; the failure
reports the pair (complete rings built, unmatched segments) of an actual
stuck state: the accumulated rings are disjoint closed homogeneous rings
of length at least 3, the availability array is pinned pointwise to
exactly the segments outside them, the seed search can close no further
ring from it, and the unmatched count is the number of segments outside
all built rings; the dangling segments (1,2), (3,4) yield the failure
(0 complete rings, 2 unmatched segments). -/
theorem claim4_failure_counts :
    (∀ segs : List NodeDescPair,
        (¬∃ rings : List (List Nat), rings_partition segs rings ∧ rings_closed segs rings) →
        ∃ rc uc, find_polygons_in_multipolygon segs = some (Except.error (rc, uc))) ∧
      (∀ (segs : List NodeDescPair) (rc uc : Nat),
        find_polygons_in_multipolygon segs = some (Except.error (rc, uc)) →
        ∃ (ringsE : List (List Nat)) (avail2 avail3 : List Bool),
          rc = ringsE.length ∧ uc = segs.length - ringsE.flatten.length ∧ uc ≠ 0 ∧
          rings_invariant segs ringsE avail2 uc ∧ rings_closed segs ringsE ∧
          find_ring_seeds segs (get_connections segs) (List.range segs.length) avail2 =
            some (none, avail3)) ∧
      find_polygons_in_multipolygon dangling_segs = some (Except.error (0, 2)) :=
  ⟨find_polygons_fails_without_decomposition, find_polygons_error_report, rfl⟩

/-- C4 witness: the dangling segments (1,2), (3,4) admit no closed-ring
decomposition (any ring would need 3 distinct indices below 2), the
theorem therefore yields a failure, and at the concrete payload (0, 2)
it produces the stuck-state characterisation. -/
theorem claim4_witness :
    (¬∃ rings : List (List Nat),
        rings_partition dangling_segs rings ∧ rings_closed dangling_segs rings) ∧
      (∃ rc uc, find_polygons_in_multipolygon dangling_segs = some (Except.error (rc, uc))) ∧
      (∃ (ringsE : List (List Nat)) (avail2 avail3 : List Bool),
        (0 : Nat) = ringsE.length ∧
        (2 : Nat) = dangling_segs.length - ringsE.flatten.length ∧ (2 : Nat) ≠ 0 ∧
        rings_invariant dangling_segs ringsE avail2 2 ∧ rings_closed dangling_segs ringsE ∧
        find_ring_seeds dangling_segs (get_connections dangling_segs)
          (List.range dangling_segs.length) avail2 = some (none, avail3)) := by
  have hlen2 : dangling_segs.length = 2 := rfl
  have hno : ¬∃ rings : List (List Nat),
      rings_partition dangling_segs rings ∧ rings_closed dangling_segs rings := by
    rintro ⟨rings, ⟨hnd, hcov, hr⟩, _⟩
    have h0 : (0 : Nat) ∈ rings.flatten := (hcov 0).mpr (by rw [hlen2]; omega)
    rw [List.mem_flatten] at h0
    obtain ⟨r, hrm, h0r⟩ := h0
    have h3 := (hr r hrm).2.1
    have hndr : r.Nodup := hnd.sublist (List.sublist_flatten_of_mem hrm)
    have hsub : r.toFinset ⊆ Finset.range 2 := by
      intro i hi
      rw [List.mem_toFinset] at hi
      rw [Finset.mem_range]
      have := (hcov i).mp (List.mem_flatten.mpr ⟨r, hrm, hi⟩)
      omega
    have hcard : r.toFinset.card = r.length := List.toFinset_card_of_nodup hndr
    have hle := Finset.card_le_card hsub
    rw [hcard, Finset.card_range] at hle
    omega
  exact ⟨hno, claim4_failure_counts.1 dangling_segs hno,
    claim4_failure_counts.2.1 dangling_segs 0 2 claim4_failure_counts.2.2⟩

/-- C5: the ring search only accepts a ring once it has at least 3
segments, so every ring of a successful assembly has length at least 3
and a 2-segment loop is never returned as a ring. -/
theorem claim5_min_ring_length (segs : List NodeDescPair) (rings : List (List Nat))
    (h : find_all_rings segs = some (Except.ok rings)) :
    ∀ r ∈ rings, 3 ≤ r.length :=
  fun r hr => ((find_all_rings_ok segs rings h).2.2 r hr).2.1

/-- C5 witness: the triangle assembles into the single ring [0, 1, 2],
whose length is at least 3. -/
theorem claim5_witness :
    find_all_rings tri_segs = some (Except.ok [[0, 1, 2]]) ∧
      (∀ r ∈ [[0, 1, 2]], 3 ≤ r.length) :=
  ⟨rfl, claim5_min_ring_length tri_segs [[0, 1, 2]] rfl⟩

/-- C6: every ring of a successful assembly is homogeneous in `is_inner`:
each of its segments carries the same flag as the ring's seed (first)
segment. -/
theorem claim6_homogeneous (segs : List NodeDescPair) (rings : List (List Nat))
    (h : find_all_rings segs = some (Except.ok rings)) :
    ∀ r ∈ rings, ∀ i ∈ r,
      (segs.getD i default).is_inner = (segs.getD (r.headD 0) default).is_inner :=
  fun r hr i hi => ((find_all_rings_ok segs rings h).2.2 r hr).2.2 i hi

/-- C6 witness: the mixed relation (outer triangle and inner triangle
sharing the vertex with id 1) assembles into the rings [0, 1, 2] and
[3, 4, 5] - the inner and outer segments never merge - and each ring is
homogeneous in `is_inner`. -/
theorem claim6_witness :
    find_all_rings mixed_segs = some (Except.ok [[0, 1, 2], [3, 4, 5]]) ∧
      (∀ r ∈ [[0, 1, 2], [3, 4, 5]], ∀ i ∈ r,
        (mixed_segs.getD i default).is_inner =
          (mixed_segs.getD (r.headD 0) default).is_inner) :=
  ⟨rfl, claim6_homogeneous mixed_segs [[0, 1, 2], [3, 4, 5]] rfl⟩

/-- C7: on success the returned rings partition the segment indices: the
concatenation of all rings has no duplicates (so the rings are pairwise
disjoint) and contains exactly the indices of the input segments. -/
theorem claim7_partition (segs : List NodeDescPair) (rings : List (List Nat))
    (h : find_all_rings segs = some (Except.ok rings)) :
    rings.flatten.Nodup ∧ (∀ i, i ∈ rings.flatten ↔ i < segs.length) ∧
      List.Pairwise (fun r1 r2 => ∀ i ∈ r1, i ∉ r2) rings := by
  obtain ⟨h1, h2, _⟩ := find_all_rings_ok segs rings h
  exact ⟨h1, h2, nodup_flatten_pairwise rings h1⟩

/-- C7 witness: the mixed relation's two rings [0, 1, 2] and [3, 4, 5]
partition the six segment indices. -/
theorem claim7_witness :
    find_all_rings mixed_segs = some (Except.ok [[0, 1, 2], [3, 4, 5]]) ∧
      ([[0, 1, 2], [3, 4, 5]] : List (List Nat)).flatten.Nodup ∧
      (∀ i, i ∈ ([[0, 1, 2], [3, 4, 5]] : List (List Nat)).flatten ↔
        i < mixed_segs.length) ∧
      List.Pairwise (fun r1 r2 => ∀ i ∈ r1, i ∉ r2)
        ([[0, 1, 2], [3, 4, 5]] : List (List Nat)) :=
  ⟨rfl, claim7_partition mixed_segs [[0, 1, 2], [3, 4, 5]] rfl⟩

/-- C8 counterexample: the claim says every `fill_contour` call returns
one of the specified outcomes (a Figure); on the single edge (0,0)-(0,3)
the call instead halts with the pairing loop's index-out-of-bounds panic
(embedded as `none`), which is not a Figure. -/
theorem claim8_counterexample : fill_contour tall_edge_points = none := by decide

/-- C8 amended: both algorithms terminate - the ring assembly driver
(seed loop, DFS stack and `while unmatched > 0` loop) always produces a
success or failure outcome on every finite input, and the Bresenham walk
of `draw_line`, whose `i32` arithmetic is embedded with wrap-on-overflow
semantics (`wrap32`), always reaches its endpoint within its fuel
whenever both endpoint coordinates have magnitude at most `2^28` (within
that range no intermediate `i32` value of the walk overflows) - but
`fill_contour` may halt with the out-of-bounds panic of the pairing loop
instead of returning a Figure when a scanline keeps an odd number of
surviving edges. -/
theorem claim8_termination :
    (∀ segs : List NodeDescPair, (find_polygons_in_multipolygon segs).isSome) ∧
      (∀ (edge_idx : Nat) (p1 p2 : Point) (m : EdgesByY),
        p1.x.natAbs ≤ 268435456 → p1.y.natAbs ≤ 268435456 →
        p2.x.natAbs ≤ 268435456 → p2.y.natAbs ≤ 268435456 →
        (draw_line_walk edge_idx p1 p2 m).isSome) :=
  ⟨find_polygons_in_multipolygon_isSome,
    fun edge_idx p1 p2 m h1 h2 h3 h4 => draw_line_walk_isSome edge_idx p1 p2 m h1 h2 h3 h4⟩

/-- C8 witness: the amended termination theorem applied to a concrete
segment list and a concrete in-range line (0,0)-(3,2). -/
theorem claim8_witness :
    (find_polygons_in_multipolygon tri_segs).isSome ∧
      ((0 : Int).natAbs ≤ 268435456 ∧ (3 : Int).natAbs ≤ 268435456 ∧
        (2 : Int).natAbs ≤ 268435456) ∧
      (draw_line_walk 0 ⟨0, 0⟩ ⟨3, 2⟩ []).isSome :=
  ⟨claim8_termination.1 tri_segs, by decide,
    claim8_termination.2 0 ⟨0, 0⟩ ⟨3, 2⟩ [] (by decide) (by decide) (by decide) (by decide)⟩

/-- C9: if every input edge is a single point (start equal to end), every
edge record is poisoned, so no pairable edge survives and `fill_contour`
returns the empty Figure. -/
theorem claim9_degenerate (points : List (Point × Point))
    (h : ∀ e ∈ points, e.1 = e.2) : fill_contour points = some [] := by
  unfold fill_contour
  exact fill_rows_all_poisoned _ (rasterize_edges_all_poisoned points h)

/-- C9 witness: two point-edges at (5,7) produce the empty Figure. -/
theorem claim9_witness :
    (∀ e ∈ degenerate_points, e.1 = e.2) ∧ fill_contour degenerate_points = some [] :=
  ⟨by decide, claim9_degenerate degenerate_points (by decide)⟩

/-- C10: ring assembly on an empty segment list succeeds with an empty
polygon list (the driver loop body never runs, so no failure is possible). -/
theorem claim10_empty : find_polygons_in_multipolygon [] = some (Except.ok []) := rfl
